import Mathlib

/-!
# Keygeist keyboard listener: a shallow embedding of `keyboard/listener.go`
and of the key-binding parser of `keyboard/config.go`

The listener reads fixed-size `input_event` records from a device, keeps a
table of key states, and after every key event re-evaluates all registered
key combinations, invoking the handlers of those that are fully pressed.  The
parser turns a string such as `win+c` into the key codes of a combination.

Modelling conventions

* Machine integers are `Nat`/`Int`; a byte is a `Nat` below 256, `uint16`
  key codes are `Nat`, two's-complement conversions are explicit.
* A Go `map[K]V` is a function `K → Option V`; indexing an absent key gives
  the zero value of `V`.
* A handler (`func()`) is an identifier; invoking it appends the identifier
  to a trace.  Handlers are taken not to touch the listener's own fields
  (these are unexported, and the handlers in the repository only print or
  hand work to other goroutines).
* The device is a stream of read results.  A `Stop()` issued from the control
  context while the loop is inside an iteration is recorded on that
  iteration's stream item.
* The operating system is a record of the answers of `os.ReadDir`,
  `os.Readlink`, `os.Stat` and `os.Open`.
* A Go string is a sequence of characters.  The `switch` over key names is a
  table searched in source order.  The Unicode tables behind
  `strings.ToLower` and `strings.TrimSpace` belong to the Go library and are
  a parameter of the parser.
-/

namespace Keygeist

/-! ## Go maps -/

/-- A Go map: a partial function from keys to values. -/
abbrev GoMap (κ ν : Type) := κ → Option ν

/-- The value of `make(map[K]V)`: no key is present. -/
def GoMap.empty {κ ν : Type} : GoMap κ ν := fun _ => none

/-- The Go expression `m[k]`: the stored value, or the zero value when absent. -/
def GoMap.index {κ ν : Type} [Inhabited ν] (m : GoMap κ ν) (k : κ) : ν :=
  (m k).getD default

/-- The Go statement `m[k] = v`. -/
def GoMap.set {κ ν : Type} [DecidableEq κ] (m : GoMap κ ν) (k : κ) (v : ν) : GoMap κ ν :=
  fun k' => if k' = k then some v else m k'

/-! ## Data model (listener.go, lines 13-43) -/

/-- The `unix.Timeval` of an event: two signed 64-bit integers. -/
structure Timeval where
  Sec : Int
  Usec : Int
deriving DecidableEq, Repr

/-- The Linux `input_event` record (`Type` is spelled `Typ` here). -/
structure InputEvent where
  Time : Timeval
  Typ : Nat
  Code : Nat
  Value : Int
deriving DecidableEq, Repr

/-- The state of a key; `KeyReleased = false`, `KeyPressed = true`. -/
abbrev KeyState := Bool

def KeyReleased : KeyState := false
def KeyPressed : KeyState := true

/-- A named combination of key codes. -/
structure KeyCombination where
  Name : String
  Keys : List Nat
deriving DecidableEq, Repr

/-- A registered handler, identified by a number. -/
structure Callback where
  id : Nat
deriving DecidableEq, Repr

/-- An `*os.File` handle: the path it was opened on and whether `Close` ran. -/
structure File where
  path : String
  closed : Bool
deriving DecidableEq, Repr

/-- The listener object. -/
structure KeyboardListener where
  devicePath : String
  file : Option File
  keyStates : GoMap Nat KeyState
  combinations : List KeyCombination
  callbacks : GoMap String (List Callback)
  running : Bool

/-- The event type of key events. -/
def EV_KEY : Nat := 0x01

/-- Constructor `NewKeyboardListener`. -/
def NewKeyboardListener (devicePath : String) : KeyboardListener :=
  { devicePath := devicePath
    file := none
    keyStates := GoMap.empty
    combinations := []
    callbacks := GoMap.empty
    running := false }

/-- Method `SetDevice`. -/
def SetDevice (kl : KeyboardListener) (devicePath : String) : KeyboardListener :=
  { kl with devicePath := devicePath }

/-- Method `AddCombination`: appends one definition to the list. -/
def AddCombination (kl : KeyboardListener) (name : String) (keys : List Nat) :
    KeyboardListener :=
  let combination : KeyCombination := { Name := name, Keys := keys }
  { kl with combinations := kl.combinations ++ [combination] }

/-- Method `OnCombination`: appends the handler to the list stored under the name. -/
def OnCombination (kl : KeyboardListener) (name : String) (callback : Callback) :
    KeyboardListener :=
  { kl with callbacks := kl.callbacks.set name (kl.callbacks.index name ++ [callback]) }

/-! ## Matching and dispatch (listener.go, lines 168-198) -/

/-- The loop of `isCombinationActive`: the first key that does not read pressed
ends it with `false`. -/
def keysAllPressed (keyStates : GoMap Nat KeyState) : List Nat → Bool
  | [] => true
  | key :: rest => if !(keyStates.index key) then false else keysAllPressed keyStates rest

/-- Method `isCombinationActive`. -/
def isCombinationActive (kl : KeyboardListener) (combination : KeyCombination) : Bool :=
  keysAllPressed kl.keyStates combination.Keys

/-- Method `triggerCallbacks`: when the name has an entry, its handlers are
invoked one after the other; `trace` is the record of invocations so far. -/
def triggerCallbacks (kl : KeyboardListener) (combinationName : String)
    (trace : List Callback) : List Callback :=
  match kl.callbacks combinationName with
  | some callbacks => callbacks.foldl (fun t callback => t ++ [callback]) trace
  | none => trace

/-- The body of the loop over the combinations in `handleKeyEvent`. -/
def checkCombination (kl : KeyboardListener) (trace : List Callback)
    (combination : KeyCombination) : List Callback :=
  if isCombinationActive kl combination then triggerCallbacks kl combination.Name trace
  else trace

/-- Method `handleKeyEvent`: the table entry of the event's code is written,
then all combinations are checked in order.  The result is the listener after
the event and the handlers invoked, in order of invocation. -/
def handleKeyEvent (kl : KeyboardListener) (event : InputEvent) :
    KeyboardListener × List Callback :=
  let keyState : Bool := event.Value != 0
  let kl1 := { kl with keyStates := kl.keyStates.set event.Code keyState }
  (kl1, kl1.combinations.foldl (checkCombination kl1) [])

/-! ## Decoding (listener.go, lines 209-224) -/

/-- Little-endian value of a byte sequence, as `binary.LittleEndian` computes it. -/
def littleEndian : List Nat → Nat
  | [] => 0
  | b :: rest => b + 256 * littleEndian rest

/-- The Go slice expression `buf[lo:hi]`. -/
def slice (buf : List Nat) (lo hi : Nat) : List Nat := (buf.drop lo).take (hi - lo)

def LittleEndian.Uint16 (b : List Nat) : Nat := littleEndian (b.take 2) % 2 ^ 16
def LittleEndian.Uint32 (b : List Nat) : Nat := littleEndian (b.take 4) % 2 ^ 32
def LittleEndian.Uint64 (b : List Nat) : Nat := littleEndian (b.take 8) % 2 ^ 64

/-- The conversion `int64(u)` of an unsigned 64-bit value. -/
def int64 (u : Nat) : Int :=
  if u % 2 ^ 64 < 2 ^ 63 then ((u % 2 ^ 64 : Nat) : Int) else ((u % 2 ^ 64 : Nat) : Int) - 2 ^ 64

/-- The conversion `int32(u)` of an unsigned 32-bit value. -/
def int32 (u : Nat) : Int :=
  if u % 2 ^ 32 < 2 ^ 31 then ((u % 2 ^ 32 : Nat) : Int) else ((u % 2 ^ 32 : Nat) : Int) - 2 ^ 32

/-- The five assignments of `binaryRead` that fill the event from the buffer. -/
def decodeEvent (buf : List Nat) : InputEvent :=
  { Time :=
      { Sec := int64 (LittleEndian.Uint64 (slice buf 0 8))
        Usec := int64 (LittleEndian.Uint64 (slice buf 8 16)) }
    Typ := LittleEndian.Uint16 (slice buf 16 18)
    Code := LittleEndian.Uint16 (slice buf 18 20)
    Value := int32 (LittleEndian.Uint32 (slice buf 20 24)) }

/-- What one call of `file.Read(buf)` gives back: the bytes it stored at the
start of the buffer (their number is the count `n` that `binaryRead` drops) and
the error, if any. -/
structure ReadResult where
  data : List Nat
  err : Option String
deriving DecidableEq, Repr

/-- The 24-byte buffer after the read: `make([]byte, 24)` is all zero, and the
read overwrites its first `n` bytes. -/
def bufferAfterRead (r : ReadResult) : List Nat :=
  r.data.take 24 ++ List.replicate (24 - r.data.length) 0

/-- Method `binaryRead`: the error of the read when there is one, the decoded
buffer otherwise. -/
def binaryRead (r : ReadResult) : Except String InputEvent :=
  match r.err with
  | some e => .error e
  | none => .ok (decodeEvent (bufferAfterRead r))

/-! ## The listen loop (listener.go, lines 150-166) -/

/-- One item of the device stream: the result of the read of one iteration,
and whether `Stop()` ran in the control context during that iteration before
the loop looked at the running flag again. -/
structure ReadStep where
  result : ReadResult
  stopped : Bool
deriving DecidableEq, Repr

/-- What a run of the loop leaves behind. -/
structure LoopResult where
  kl : KeyboardListener
  /-- handlers invoked, in order -/
  calls : List Callback
  /-- the `Read error` lines printed -/
  log : List String
  /-- stream items the loop never read -/
  remaining : List ReadStep
  /-- whether the loop has returned (otherwise it waits in a read) -/
  exited : Bool

/-- The running flag after a `Stop()` of the control context, if one ran. -/
def observeStop (kl : KeyboardListener) (stopped : Bool) : KeyboardListener :=
  if stopped then { kl with running := false } else kl

/-- Method `listenLoop`, run over a finite stream of read results. -/
def listenLoop (kl : KeyboardListener) : List ReadStep → LoopResult
  | [] =>
    { kl := kl, calls := [], log := [], remaining := [], exited := !kl.running }
  | step :: rest =>
    if !kl.running then
      { kl := kl, calls := [], log := [], remaining := step :: rest, exited := true }
    else
      let kl1 := observeStop kl step.stopped
      match binaryRead step.result with
      | .error e =>
        { kl := kl1
          calls := []
          log := if kl1.running then ["Read error: " ++ e] else []
          remaining := rest
          exited := true }
      | .ok event =>
        if event.Typ = EV_KEY then
          let handled := handleKeyEvent kl1 event
          let r := listenLoop handled.1 rest
          { r with calls := handled.2 ++ r.calls }
        else
          listenLoop kl1 rest

/-- Successive calls of `handleKeyEvent`, one per event: the listener at the
end and, for each event, the handlers invoked on it. -/
def handleKeyEvents (kl : KeyboardListener) :
    List InputEvent → KeyboardListener × List (List Callback)
  | [] => (kl, [])
  | event :: rest =>
    let handled := handleKeyEvent kl event
    let r := handleKeyEvents handled.1 rest
    (r.1, handled.2 :: r.2)

/-- A key event with the given code and value (the time stamp plays no role). -/
def keyEvent (code : Nat) (value : Int) : InputEvent :=
  { Time := { Sec := 0, Usec := 0 }, Typ := EV_KEY, Code := code, Value := value }

/-- The event a key press produces. -/
def pressEvent (code : Nat) : InputEvent := keyEvent code 1

/-- The event a key release produces. -/
def releaseEvent (code : Nat) : InputEvent := keyEvent code 0

/-! ## Device discovery and lifecycle (listener.go, lines 55-97 and 118-148) -/

/-- `strings.HasPrefix` on character lists. -/
def startsWithChars : List Char → List Char → Bool
  | _, [] => true
  | [], _ :: _ => false
  | c :: s, d :: p => c == d && startsWithChars s p

/-- `strings.Contains` on character lists. -/
def containsChars : List Char → List Char → Bool
  | [], sub => sub.isEmpty
  | c :: rest, sub => startsWithChars (c :: rest) sub || containsChars rest sub

/-- The library function `strings.Contains`. -/
def stringsContains (s sub : String) : Bool := containsChars s.toList sub.toList

/-- The components of a path between its slashes. -/
def splitSlash : List Char → List (List Char)
  | [] => [[]]
  | c :: rest =>
    match splitSlash rest with
    | [] => [[]]
    | part :: parts => if c = '/' then [] :: part :: parts else (c :: part) :: parts

/-- The lexical simplification of `filepath.Clean` on the components of a
path: empty and `.` components go, `..` removes the component before it (at
the root it goes itself, at the start of a relative path it stays). -/
def cleanComponents (rooted : Bool) (parts : List (List Char)) : List (List Char) :=
  (parts.foldl (fun acc part =>
    if part = [] ∨ part = ['.'] then acc
    else if part = ['.', '.'] then
      match acc with
      | [] => if rooted then [] else [part]
      | q :: qs => if q = ['.', '.'] then part :: acc else qs
    else part :: acc) []).reverse

/-- The library function `filepath.IsAbs` (Unix). -/
def filepathIsAbs (path : String) : Bool := startsWithChars path.toList ['/']

/-- The library function `filepath.Clean` (Unix). -/
def filepathClean (path : String) : String :=
  let rooted := filepathIsAbs path
  let body := List.intercalate ['/'] (cleanComponents rooted (splitSlash path.toList))
  if rooted then String.mk ('/' :: body) else if body = [] then "." else String.mk body

/-- The library function `filepath.Join` for two elements. -/
def filepathJoin (dir name : String) : String :=
  if dir = "" ∧ name = "" then ""
  else if dir = "" then filepathClean name
  else if name = "" then filepathClean dir
  else filepathClean (dir ++ "/" ++ name)

/-- The part of the operating system the listener talks to. -/
structure FileSystem where
  /-- the names of `os.ReadDir`, in listing order, or its error -/
  readDir : String → Except String (List String)
  /-- the target of `os.Readlink`, or its error -/
  readlink : String → Except String String
  /-- whether `os.Stat` succeeds -/
  stat : String → Bool
  /-- the error of `os.Open`, if it fails -/
  openError : String → Option String

/-- The loop over the by-path entries in `FindKeyboardDevice`. -/
def findByPath (fs : FileSystem) (byPathDir : String) : List String → Option String
  | [] => none
  | entry :: rest =>
    if stringsContains entry "kbd" then
      let devicePath := filepathJoin byPathDir entry
      match fs.readlink devicePath with
      | .error _ => findByPath fs byPathDir rest
      | .ok actualPath =>
        if !filepathIsAbs actualPath then some (filepathJoin "/dev/input/by-path" actualPath)
        else some actualPath
    else findByPath fs byPathDir rest

/-- The fallback list of `FindKeyboardDevice`. -/
def commonDevices : List String :=
  [ "/dev/input/event0", "/dev/input/event1", "/dev/input/event2",
    "/dev/input/event3", "/dev/input/event4", "/dev/input/event5" ]

/-- Method `FindKeyboardDevice`. -/
def FindKeyboardDevice (fs : FileSystem) : Except String String :=
  let byPathDir := "/dev/input/by-path"
  match fs.readDir byPathDir with
  | .error err => .error ("failed to read " ++ byPathDir ++ ": " ++ err)
  | .ok entries =>
    match findByPath fs byPathDir entries with
    | some actualPath => .ok actualPath
    | none =>
      match commonDevices.find? fs.stat with
      | some device => .ok device
      | none => .error "no keyboard device found"

/-- Method `Start`: the listener after the call and the error returned, if
any.  On success the listen loop is launched on the returned listener. -/
def Start (fs : FileSystem) (kl : KeyboardListener) : KeyboardListener × Option String :=
  let resolved : KeyboardListener × Option String :=
    if kl.devicePath = "" then
      match FindKeyboardDevice fs with
      | .error err => (kl, some ("failed to find keyboard device: " ++ err))
      | .ok devicePath => ({ kl with devicePath := devicePath }, none)
    else (kl, none)
  match resolved.2 with
  | some err => (resolved.1, some err)
  | none =>
    let kl1 := resolved.1
    match fs.openError kl1.devicePath with
    | some err => (kl1, some ("failed to open device " ++ kl1.devicePath ++ ": " ++ err))
    | none => ({ kl1 with file := some { path := kl1.devicePath, closed := false },
                          running := true }, none)

/-- Method `Stop`. -/
def Stop (kl : KeyboardListener) : KeyboardListener :=
  { kl with
    running := false
    file := match kl.file with
      | some f => some { f with closed := true }
      | none => none }

/-! ## The wire format of the specification -/

/-- The `n` little-endian bytes of `v`. -/
def leBytes : Nat → Nat → List Nat
  | 0, _ => []
  | n + 1, v => v % 256 :: leBytes n (v / 256)

/-- The record of the specification for an event: 8 bytes seconds, 8 bytes
microseconds, 2 bytes type, 2 bytes code, 4 bytes value, each little-endian,
the signed ones in two's complement. -/
def encodeEvent (e : InputEvent) : List Nat :=
  leBytes 8 (e.Time.Sec % 2 ^ 64).toNat ++ leBytes 8 (e.Time.Usec % 2 ^ 64).toNat ++
    leBytes 2 e.Typ ++ leBytes 2 e.Code ++ leBytes 4 (e.Value % 2 ^ 32).toNat

/-- The value ranges of the fields of an event. -/
def InputEvent.InRange (e : InputEvent) : Prop :=
  (-(2 : Int) ^ 63 ≤ e.Time.Sec ∧ e.Time.Sec < 2 ^ 63) ∧
  (-(2 : Int) ^ 63 ≤ e.Time.Usec ∧ e.Time.Usec < 2 ^ 63) ∧
  e.Typ < 2 ^ 16 ∧ e.Code < 2 ^ 16 ∧
  (-(2 : Int) ^ 31 ≤ e.Value ∧ e.Value < 2 ^ 31)

/-- A 24-byte buffer. -/
def IsBuffer (b : List Nat) : Prop := b.length = 24 ∧ ∀ x ∈ b, x < 256

/-- The unsigned little-endian number in the `n` bytes of `b` from offset `lo`. -/
def wireUnsigned (b : List Nat) (lo n : Nat) : Nat :=
  ∑ i in Finset.range n, b.getD (lo + i) 0 * 256 ^ i

/-- The two's-complement reading of a `w`-bit unsigned number. -/
def wireSigned (w : Nat) (u : Nat) : Int :=
  if u < 2 ^ (w - 1) then (u : Int) else (u : Int) - 2 ^ w

/-! ## Example listeners -/

/-- A listener with the chord `[30, 48]` under the name `a+b` and one handler. -/
def chordListener : KeyboardListener :=
  OnCombination (AddCombination (NewKeyboardListener "/dev/input/event3") "a+b" [30, 48])
    "a+b" ⟨7⟩

/-- The listener `chordListener` with both keys of its chord held. -/
def heldListener : KeyboardListener :=
  (handleKeyEvents chordListener [pressEvent 30, pressEvent 48]).1

/-- A file system on which every open succeeds and nothing else exists. -/
def exampleFileSystem : FileSystem :=
  { readDir := fun _ => .error "no such directory"
    readlink := fun _ => .error "no such file"
    stat := fun _ => false
    openError := fun _ => none }

/-- The listener `chordListener` after a successful `Start`. -/
def runningListener : KeyboardListener := (Start exampleFileSystem chordListener).1

/-- A read that fills the buffer with the given bytes and reports no error. -/
def bytesRead (data : List Nat) : ReadStep :=
  { result := { data := data, err := none }, stopped := false }

/-- The record of an auto-repeat event (value 2) of key 30. -/
def repeatRecord : List Nat :=
  List.replicate 16 0 ++ [1, 0, 30, 0, 2, 0, 0, 0]

/-- The record of a release event (value 0) of key 48. -/
def releaseRecord : List Nat :=
  List.replicate 16 0 ++ [1, 0, 48, 0, 0, 0, 0, 0]

/-- The listener `heldListener` after a successful `Start`. -/
def heldRunningListener : KeyboardListener := (Start exampleFileSystem heldListener).1

/-- The record of a synchronisation event (type 0). -/
def synRecord : List Nat :=
  List.replicate 24 0

/-- The first 23 bytes of the record of a press of the key `code`. -/
def shortPressRecord (code : Nat) : List Nat :=
  List.replicate 16 0 ++ [1, 0, code, 0, 1, 0, 0]

/-- A listener with the chords `[30, 48]` and `[30, 48, 46]`, one handler each. -/
def twoChordListener : KeyboardListener :=
  OnCombination (OnCombination
    (AddCombination (AddCombination (NewKeyboardListener "") "ab" [30, 48]) "abc" [30, 48, 46])
    "ab" ⟨1⟩) "abc" ⟨2⟩

/-- The complete 24-byte record of a press of the key `code`. -/
def pressRecord (code : Nat) : List Nat := shortPressRecord code ++ [0]

/-- The listener `runningListener` after a session in which keys 30 and 48
were pressed, a `Stop` and a new `Start`. -/
def restartedListener : KeyboardListener :=
  (Start exampleFileSystem
    (Stop (listenLoop runningListener [bytesRead (pressRecord 30), bytesRead (pressRecord 48)]).kl)).1

/-- For each event of a sequence handled in turn, whether the combination is
active in the table as it stands after that event. -/
def activeAfterEach (kl : KeyboardListener) (c : KeyCombination) : List InputEvent → List Bool
  | [] => []
  | event :: rest =>
    isCombinationActive (handleKeyEvent kl event).1 c ::
      activeAfterEach (handleKeyEvent kl event).1 c rest

/-- A listener on which the chord `[30, 48]` was added twice under one name,
with one handler. -/
def doubleListener : KeyboardListener :=
  OnCombination
    (AddCombination (AddCombination (NewKeyboardListener "") "a+b" [30, 48]) "a+b" [30, 48])
    "a+b" ⟨7⟩

/-- A listener with a chord without keys and one handler. -/
def emptyChordListener : KeyboardListener :=
  OnCombination (AddCombination (NewKeyboardListener "") "none" []) "none" ⟨9⟩

deriving instance DecidableEq for Except

/-- A file system without the by-path directory, on which `/dev/input/event0`
exists. -/
def noByPathFileSystem : FileSystem :=
  { readDir := fun _ => .error "no such file or directory"
    readlink := fun _ => .error "no such file or directory"
    stat := fun path => decide (path = "/dev/input/event0")
    openError := fun _ => none }

/-- A file system whose by-path directory lists two keyboard entries, the
first of which is not a symbolic link; `/dev/input/event2` exists. -/
def brokenLinkFileSystem : FileSystem :=
  { readDir := fun _ => .ok ["pci-0000:00:14.0-usb-0:1:1.0-event-kbd",
      "platform-i8042-serio-0-event-kbd"]
    readlink := fun path =>
      if path = "/dev/input/by-path/platform-i8042-serio-0-event-kbd" then .ok "../event3"
      else .error "invalid argument"
    stat := fun path => decide (path = "/dev/input/event2")
    openError := fun _ => none }

/-- A file system whose only keyboard entry in the by-path directory is not a
symbolic link; `/dev/input/event2` exists. -/
def onlyBrokenLinkFileSystem : FileSystem :=
  { readDir := fun _ => .ok ["pci-0000:00:14.0-usb-0:1:1.0-event-kbd", "pci-0000:00:14.0-event-mouse"]
    readlink := fun _ => .error "invalid argument"
    stat := fun path => decide (path = "/dev/input/event2")
    openError := fun _ => none }

/-! ## Key codes (listener.go, lines 226-301) -/

def KEY_ESC : Nat := 1
def KEY_1 : Nat := 2
def KEY_2 : Nat := 3
def KEY_3 : Nat := 4
def KEY_4 : Nat := 5
def KEY_5 : Nat := 6
def KEY_6 : Nat := 7
def KEY_7 : Nat := 8
def KEY_8 : Nat := 9
def KEY_9 : Nat := 10
def KEY_0 : Nat := 11
def KEY_MINUS : Nat := 12
def KEY_EQUAL : Nat := 13
def KEY_BACKSPACE : Nat := 14
def KEY_TAB : Nat := 15
def KEY_Q : Nat := 16
def KEY_W : Nat := 17
def KEY_E : Nat := 18
def KEY_R : Nat := 19
def KEY_T : Nat := 20
def KEY_Y : Nat := 21
def KEY_U : Nat := 22
def KEY_I : Nat := 23
def KEY_O : Nat := 24
def KEY_P : Nat := 25
def KEY_LEFTBRACE : Nat := 26
def KEY_RIGHTBRACE : Nat := 27
def KEY_ENTER : Nat := 28
def KEY_LEFTCTRL : Nat := 29
def KEY_A : Nat := 30
def KEY_S : Nat := 31
def KEY_D : Nat := 32
def KEY_F : Nat := 33
def KEY_G : Nat := 34
def KEY_H : Nat := 35
def KEY_J : Nat := 36
def KEY_K : Nat := 37
def KEY_L : Nat := 38
def KEY_SEMICOLON : Nat := 39
def KEY_APOSTROPHE : Nat := 40
def KEY_GRAVE : Nat := 41
def KEY_LEFTSHIFT : Nat := 42
def KEY_BACKSLASH : Nat := 43
def KEY_Z : Nat := 44
def KEY_X : Nat := 45
def KEY_C : Nat := 46
def KEY_V : Nat := 47
def KEY_B : Nat := 48
def KEY_N : Nat := 49
def KEY_M : Nat := 50
def KEY_COMMA : Nat := 51
def KEY_DOT : Nat := 52
def KEY_SLASH : Nat := 53
def KEY_RIGHTSHIFT : Nat := 54
def KEY_LEFTALT : Nat := 56
def KEY_SPACE : Nat := 57
def KEY_CAPSLOCK : Nat := 58
def KEY_F1 : Nat := 59
def KEY_F2 : Nat := 60
def KEY_F3 : Nat := 61
def KEY_F4 : Nat := 62
def KEY_F5 : Nat := 63
def KEY_F6 : Nat := 64
def KEY_F7 : Nat := 65
def KEY_F8 : Nat := 66
def KEY_F9 : Nat := 67
def KEY_F10 : Nat := 68
def KEY_F11 : Nat := 87
def KEY_F12 : Nat := 88
def KEY_LEFTMETA : Nat := 125
def KEY_RIGHTMETA : Nat := 126

/-! ## Key bindings (config.go) -/

/-- The cases of the `switch` in `stringToKeyCode`, in source order: each
name with the key code its case returns. -/
def keyNames : List (String × Nat) :=
  [ ("ctrl", KEY_LEFTCTRL), ("control", KEY_LEFTCTRL),
    ("alt", KEY_LEFTALT),
    ("shift", KEY_LEFTSHIFT),
    ("win", KEY_LEFTMETA), ("windows", KEY_LEFTMETA), ("meta", KEY_LEFTMETA),
    ("a", KEY_A),
    ("b", KEY_B),
    ("c", KEY_C),
    ("d", KEY_D),
    ("e", KEY_E),
    ("f", KEY_F),
    ("g", KEY_G),
    ("h", KEY_H),
    ("i", KEY_I),
    ("j", KEY_J),
    ("k", KEY_K),
    ("l", KEY_L),
    ("m", KEY_M),
    ("n", KEY_N),
    ("o", KEY_O),
    ("p", KEY_P),
    ("q", KEY_Q),
    ("r", KEY_R),
    ("s", KEY_S),
    ("t", KEY_T),
    ("u", KEY_U),
    ("v", KEY_V),
    ("w", KEY_W),
    ("x", KEY_X),
    ("y", KEY_Y),
    ("z", KEY_Z),
    ("0", KEY_0),
    ("1", KEY_1),
    ("2", KEY_2),
    ("3", KEY_3),
    ("4", KEY_4),
    ("5", KEY_5),
    ("6", KEY_6),
    ("7", KEY_7),
    ("8", KEY_8),
    ("9", KEY_9),
    ("f1", KEY_F1),
    ("f2", KEY_F2),
    ("f3", KEY_F3),
    ("f4", KEY_F4),
    ("f5", KEY_F5),
    ("f6", KEY_F6),
    ("f7", KEY_F7),
    ("f8", KEY_F8),
    ("f9", KEY_F9),
    ("f10", KEY_F10),
    ("f11", KEY_F11),
    ("f12", KEY_F12),
    ("space", KEY_SPACE),
    ("enter", KEY_ENTER), ("return", KEY_ENTER),
    ("tab", KEY_TAB),
    ("escape", KEY_ESC), ("esc", KEY_ESC),
    ("backspace", KEY_BACKSPACE) ]

/-- The Unicode tables of the Go library behind `strings.ToLower` and
`strings.TrimSpace`; they are not part of the repository. -/
structure UnicodeTables where
  /-- the mapping `unicode.ToLower` -/
  toLower : Char → Char
  /-- the predicate `unicode.IsSpace` -/
  isSpace : Char → Bool

/-- The tables restricted to ASCII: letters `A`..`Z` are lowered, the white
space characters are the space and the codes 9 to 13. -/
def asciiTables : UnicodeTables :=
  { toLower := Char.toLower
    isSpace := fun c => decide (c = ' ' ∨ (9 ≤ c.toNat ∧ c.toNat ≤ 13)) }

/-- The library function `strings.ToLower`. -/
def stringsToLower (u : UnicodeTables) (s : String) : String :=
  String.mk (s.data.map u.toLower)

/-- The pieces of a character list between the occurrences of `sep`. -/
def splitOnChar (sep : Char) : List Char → List (List Char)
  | [] => [[]]
  | c :: rest =>
    match splitOnChar sep rest with
    | [] => [[]]
    | part :: parts => if c = sep then [] :: part :: parts else (c :: part) :: parts

/-- The library function `strings.Split` for a separator of one character. -/
def stringsSplit (s : String) (sep : Char) : List String :=
  (splitOnChar sep s.data).map String.mk

/-- The characters left by `strings.TrimSpace`. -/
def trimSpaceChars (u : UnicodeTables) (l : List Char) : List Char :=
  ((l.dropWhile u.isSpace).reverse.dropWhile u.isSpace).reverse

/-- The library function `strings.TrimSpace`. -/
def stringsTrimSpace (u : UnicodeTables) (s : String) : String :=
  String.mk (trimSpaceChars u s.data)

/-- The digit loop of `strconv.ParseUint(s, 10, 16)`: a character that is not
a decimal digit is a syntax error, a value above 65535 a range error. -/
def parseUintDigits : List Char → Nat → Option Nat
  | [], n => some n
  | c :: rest, n =>
    if c.isDigit then
      let n1 := n * 10 + (c.toNat - 48)
      if n1 > 65535 then none else parseUintDigits rest n1
    else none

/-- The library call `strconv.ParseUint(s, 10, 16)`: the value, or `none` when
it returns an error. -/
def strconvParseUint16 (s : String) : Option Nat :=
  if s.data = [] then none else parseUintDigits s.data 0

/-- Function `stringToKeyCode`: the code of the first case that names the key,
otherwise the key read as a number. -/
def stringToKeyCode (key : String) : Except String Nat :=
  match keyNames.lookup key with
  | some code => .ok code
  | none =>
    match strconvParseUint16 key with
    | some code => .ok (code % 2 ^ 16)
    | none => .error ("unknown key: " ++ key)

/-- The loop over the parts in `ParseKeyCombination`. -/
def parseKeyParts (u : UnicodeTables) (combination : String) :
    List String → List Nat → Except String (List Nat)
  | [], keys => .ok keys
  | part :: rest, keys =>
    let part := stringsTrimSpace u part
    match stringToKeyCode part with
    | .error err =>
      .error ("invalid key '" ++ part ++ "' in combination '" ++ combination ++ "': " ++ err)
    | .ok keyCode => parseKeyParts u combination rest (keys ++ [keyCode])

/-- Function `ParseKeyCombination`. -/
def ParseKeyCombination (u : UnicodeTables) (combination : String) :
    Except String (List Nat) :=
  let parts := stringsSplit (stringsToLower u combination) '+'
  parseKeyParts u combination parts []

/-- The type `KeyBindingConfig`. -/
structure KeyBindingConfig where
  ClipboardKey : String
  ScreenshotKey : String
  AllContextKey : String
  TextOnlyKey : String
deriving DecidableEq, Repr

/-- Function `DefaultKeyBindingConfig`. -/
def DefaultKeyBindingConfig : KeyBindingConfig :=
  { ClipboardKey := "win+c"
    ScreenshotKey := "win+s"
    AllContextKey := "win+e"
    TextOnlyKey := "win+t" }

/-- A key is recognised by name when a case of the `switch` carries it. -/
def IsKeyName (key : String) : Prop := key ∈ keyNames.map Prod.fst

/-- The value of a sequence of decimal digits. -/
def decimalValue (l : List Char) : Nat := l.foldl (fun a c => a * 10 + (c.toNat - 48)) 0

/-- A decimal numeral in the range 0..65535: at least one character, decimal
digits only, value at most 65535. -/
def IsDecimalUint16 (key : String) : Prop :=
  key.data ≠ [] ∧ (∀ c ∈ key.data, c.isDigit = true) ∧ decimalValue key.data ≤ 65535

/-- The canonical decimal numeral of a natural number (no leading zero, `0`
for zero), as `toString` prints it. -/
def decimalNumeral (n : Nat) : String := String.mk (Nat.toDigits 10 n)

/-- The parts of a combination string as the specification reads it: the
pieces between the `+` signs, each lower-cased and stripped of surrounding
white space. -/
def combinationParts (u : UnicodeTables) (s : String) : List String :=
  (splitOnChar '+' s.data).map (fun p => String.mk (trimSpaceChars u (p.map u.toLower)))

/-- The tables agree with the ASCII ones on the ASCII characters. -/
def UnicodeTables.AgreesOnAscii (u : UnicodeTables) : Prop :=
  ∀ c : Char, c.toNat < 128 → u.toLower c = c.toLower ∧ u.isSpace c = asciiTables.isSpace c

/-- A file system whose by-path directory lists a mouse entry and a keyboard
entry, both symbolic links; `/dev/input/event2` exists. -/
def linkedFileSystem : FileSystem :=
  { readDir := fun _ => .ok ["pci-0000:00:14.0-event-mouse", "platform-i8042-serio-0-event-kbd"]
    readlink := fun path =>
      if path = "/dev/input/by-path/platform-i8042-serio-0-event-kbd" then .ok "../event3"
      else .ok "../event5"
    stat := fun path => decide (path = "/dev/input/event2")
    openError := fun _ => none }

end Keygeist

/-! ## Matching and dispatch: auxiliary facts -/

namespace Keygeist

theorem GoMap.index_set_same {ν : Type} [Inhabited ν] (m : GoMap Nat ν) (k : Nat) (v : ν) :
    (m.set k v).index k = v := by
  simp [GoMap.index, GoMap.set]

theorem GoMap.index_set_other {ν : Type} [Inhabited ν] (m : GoMap Nat ν) (k k' : Nat) (v : ν)
    (h : k' ≠ k) : (m.set k v).index k' = m.index k' := by
  simp [GoMap.index, GoMap.set, h]

theorem GoMap.index_empty (k : Nat) : (GoMap.empty : GoMap Nat KeyState).index k = false := by
  simp [GoMap.index, GoMap.empty]

theorem keysAllPressed_iff (m : GoMap Nat KeyState) (ks : List Nat) :
    keysAllPressed m ks = true ↔ ∀ k ∈ ks, m.index k = true := by
  induction ks with
  | nil => simp [keysAllPressed]
  | cons k rest ih => cases h : m.index k <;> simp [keysAllPressed, h, ih]

theorem isCombinationActive_iff (kl : KeyboardListener) (c : KeyCombination) :
    isCombinationActive kl c = true ↔ ∀ k ∈ c.Keys, kl.keyStates.index k = true :=
  keysAllPressed_iff kl.keyStates c.Keys

theorem foldl_invoke (cbs t : List Callback) :
    cbs.foldl (fun t callback => t ++ [callback]) t = t ++ cbs := by
  induction cbs generalizing t with
  | nil => simp
  | cons c rest ih => simp [ih]

theorem triggerCallbacks_eq (kl : KeyboardListener) (name : String) (t : List Callback) :
    triggerCallbacks kl name t = t ++ kl.callbacks.index name := by
  unfold triggerCallbacks GoMap.index
  cases h : kl.callbacks name with
  | none => simp; rfl
  | some cbs => simp [foldl_invoke]

theorem checkCombination_eq (kl : KeyboardListener) (t : List Callback) (c : KeyCombination) :
    checkCombination kl t c =
      t ++ (if isCombinationActive kl c then kl.callbacks.index c.Name else []) := by
  unfold checkCombination
  split <;> simp [triggerCallbacks_eq]

theorem foldl_checkCombination (kl : KeyboardListener) (cs : List KeyCombination)
    (t : List Callback) :
    cs.foldl (checkCombination kl) t =
      t ++ cs.flatMap
        (fun c => if isCombinationActive kl c then kl.callbacks.index c.Name else []) := by
  induction cs generalizing t with
  | nil => simp
  | cons c rest ih => simp [ih, checkCombination_eq]

theorem handleKeyEvent_calls (kl : KeyboardListener) (e : InputEvent) :
    (handleKeyEvent kl e).2 = kl.combinations.flatMap
      (fun c => if isCombinationActive (handleKeyEvent kl e).1 c
        then kl.callbacks.index c.Name else []) := by
  simp [handleKeyEvent, foldl_checkCombination]

theorem handleKeyEvent_state (kl : KeyboardListener) (e : InputEvent) :
    (handleKeyEvent kl e).1 =
      { kl with keyStates := kl.keyStates.set e.Code (e.Value != 0) } := rfl

theorem mem_handleKeyEvent_calls (kl : KeyboardListener) (e : InputEvent) (h : Callback) :
    h ∈ (handleKeyEvent kl e).2 ↔
      ∃ c ∈ kl.combinations,
        (∀ k ∈ c.Keys, (handleKeyEvent kl e).1.keyStates.index k = true) ∧
          h ∈ kl.callbacks.index c.Name := by
  rw [handleKeyEvent_calls, List.mem_flatMap]
  constructor
  · rintro ⟨c, hc, hh⟩
    by_cases ha : isCombinationActive (handleKeyEvent kl e).1 c = true
    · rw [if_pos ha] at hh
      exact ⟨c, hc, (isCombinationActive_iff _ c).1 ha, hh⟩
    · rw [if_neg ha] at hh
      simp at hh
  · rintro ⟨c, hc, hk, hh⟩
    refine ⟨c, hc, ?_⟩
    rw [if_pos ((isCombinationActive_iff _ c).2 hk)]
    exact hh

/-! ## Claims about matching and dispatch -/

/-- C1: `handleKeyEvent` first writes the table entry of the event's code; with
the table as it stands after that write, the check of a registered chord that
has a handler under its name invokes that chord's handlers exactly when every
key of the chord reads pressed (and invokes nothing otherwise), and a handler
is invoked on the event exactly when it is registered under the name of a
chord whose keys all read pressed.  For distinct codes `A`, `B` and a chord
`[A, B]`, the events press `A`, release `A`, press `B` from an empty table
leave the chord inactive after each of them; when it is the only chord, no
handler is invoked. -/
theorem C1_handleKeyEvent_fires_iff_all_pressed (kl : KeyboardListener) (e : InputEvent) :
    (handleKeyEvent kl e).1.keyStates = kl.keyStates.set e.Code (e.Value != 0) ∧
    (∀ c ∈ kl.combinations, kl.callbacks.index c.Name ≠ [] → ∀ t : List Callback,
      (checkCombination (handleKeyEvent kl e).1 t c = t ++ kl.callbacks.index c.Name ↔
        ∀ k ∈ c.Keys, (handleKeyEvent kl e).1.keyStates.index k = true) ∧
      (checkCombination (handleKeyEvent kl e).1 t c = t ↔
        ¬ ∀ k ∈ c.Keys, (handleKeyEvent kl e).1.keyStates.index k = true)) ∧
    (∀ h, h ∈ (handleKeyEvent kl e).2 ↔
      ∃ c ∈ kl.combinations,
        (∀ k ∈ c.Keys, (handleKeyEvent kl e).1.keyStates.index k = true) ∧
          h ∈ kl.callbacks.index c.Name) ∧
    (∀ (A B : Nat) (name : String), A ≠ B → kl.keyStates = GoMap.empty →
      activeAfterEach kl { Name := name, Keys := [A, B] }
        [pressEvent A, releaseEvent A, pressEvent B] = [false, false, false] ∧
      (kl.combinations = [{ Name := name, Keys := [A, B] }] →
        (handleKeyEvents kl [pressEvent A, releaseEvent A, pressEvent B]).2 =
          [[], [], []])) := by
  refine ⟨rfl, ?_, mem_handleKeyEvent_calls kl e, ?_⟩
  · intro c _ hne t
    have hcb : (handleKeyEvent kl e).1.callbacks = kl.callbacks := rfl
    rw [checkCombination_eq, hcb]
    by_cases ha : isCombinationActive (handleKeyEvent kl e).1 c = true
    · have hk := (isCombinationActive_iff _ c).1 ha
      rw [if_pos ha]
      constructor
      · exact ⟨fun _ => hk, fun _ => rfl⟩
      · constructor
        · intro h
          exact absurd (List.append_right_eq_self.1 h) hne
        · intro h
          exact absurd hk h
    · have hk : ¬ ∀ k ∈ c.Keys, (handleKeyEvent kl e).1.keyStates.index k = true :=
        fun h => ha ((isCombinationActive_iff _ c).2 h)
      rw [if_neg ha]
      constructor
      · constructor
        · intro h
          rw [List.append_nil] at h
          exact absurd (List.self_eq_append_right.1 h) hne
        · intro h
          exact absurd h hk
      · exact ⟨fun _ => hk, fun _ => List.append_nil t⟩
  · intro A B name hAB hempty
    have hBA : B ≠ A := fun h => hAB h.symm
    constructor
    · simp [activeAfterEach, handleKeyEvent_state, hempty,
        isCombinationActive, keysAllPressed, GoMap.index, GoMap.set, GoMap.empty,
        pressEvent, releaseEvent, keyEvent, hAB, hBA]
    · intro hcombo
      simp [handleKeyEvents, handleKeyEvent_calls, handleKeyEvent_state, hcombo, hempty,
        isCombinationActive, keysAllPressed, GoMap.index, GoMap.set, GoMap.empty,
        pressEvent, releaseEvent, keyEvent, hAB, hBA]

/-- C1 at a concrete listener: chord `[30, 48]` with one handler, and the
events press 30, release 30, press 48. -/
theorem C1_handleKeyEvent_fires_iff_all_pressed_witness :
    (handleKeyEvents
      (OnCombination (AddCombination (NewKeyboardListener "/dev/input/event3") "a+b" [30, 48])
        "a+b" ⟨7⟩)
      [pressEvent 30, releaseEvent 30, pressEvent 48]).2 = [[], [], []] :=
  ((C1_handleKeyEvent_fires_iff_all_pressed
    (OnCombination (AddCombination (NewKeyboardListener "/dev/input/event3") "a+b" [30, 48])
      "a+b" ⟨7⟩) (pressEvent 30)).2.2.2 30 48 "a+b" (by decide) rfl).2 rfl

/-- C7: the handlers invoked by `handleKeyEvent` are, in this order, the
handler lists of the registered chords that are active after the update, the
chords taken in the order they were added and each list in the order its
handlers were registered; a chord whose name has no entry contributes no
invocation. -/
theorem C7_dispatch_order (kl : KeyboardListener) (e : InputEvent) :
    (handleKeyEvent kl e).2 =
      ((kl.combinations.filter (fun c =>
          decide (∀ k ∈ c.Keys, (handleKeyEvent kl e).1.keyStates.index k = true))).map
        (fun c => kl.callbacks.index c.Name)).flatten ∧
    (∀ name, kl.callbacks name = none → kl.callbacks.index name = []) ∧
    (∀ name cbs, kl.callbacks name = some cbs → kl.callbacks.index name = cbs) := by
  refine ⟨?_, ?_, ?_⟩
  · rw [handleKeyEvent_calls]
    generalize (handleKeyEvent kl e).1 = st
    induction kl.combinations with
    | nil => simp
    | cons c rest ih =>
      by_cases ha : isCombinationActive st c = true
      · have hk := (isCombinationActive_iff st c).1 ha
        simp only [List.flatMap_cons, ih, if_pos ha]
        rw [List.filter_cons_of_pos (by simpa using hk)]
        simp
      · have hk : ¬ ∀ k ∈ c.Keys, st.keyStates.index k = true :=
          fun h => ha ((isCombinationActive_iff st c).2 h)
        simp only [List.flatMap_cons, ih, if_neg ha]
        rw [List.filter_cons_of_neg (by simpa using hk)]
        simp
  · intro name h
    simp [GoMap.index, h]
    rfl
  · intro name cbs h
    simp [GoMap.index, h]

/-- C4: when all keys of a registered chord with a handler read pressed, any
further key event whose code is not a key of the chord, whatever its value,
makes the check of that chord invoke its handlers again: the chord's handler
list appears, whole and in order, in the invocations of that event. -/
theorem C4_level_triggered (kl : KeyboardListener) (c : KeyCombination)
    (hc : c ∈ kl.combinations) (hh : kl.callbacks.index c.Name ≠ [])
    (hp : ∀ k ∈ c.Keys, kl.keyStates.index k = true)
    (e : InputEvent) (hkey : e.Typ = EV_KEY) (hcode : e.Code ∉ c.Keys) :
    isCombinationActive (handleKeyEvent kl e).1 c = true ∧
    (∀ t, checkCombination (handleKeyEvent kl e).1 t c = t ++ kl.callbacks.index c.Name) ∧
    (∃ before after,
      (handleKeyEvent kl e).2 = before ++ kl.callbacks.index c.Name ++ after) ∧
    (∃ h, h ∈ kl.callbacks.index c.Name ∧ h ∈ (handleKeyEvent kl e).2) ∧
    (∀ rest, kl.running = true →
      ∀ r : ReadResult, binaryRead r = .ok e →
        ∃ before after, (listenLoop kl (⟨r, false⟩ :: rest)).calls =
          before ++ kl.callbacks.index c.Name ++ after) := by
  have hact : isCombinationActive (handleKeyEvent kl e).1 c = true := by
    rw [isCombinationActive_iff]
    intro k hk
    have hne : k ≠ e.Code := fun h => hcode (h ▸ hk)
    rw [handleKeyEvent_state]
    simp only []
    rw [GoMap.index_set_other _ _ _ _ hne]
    exact hp k hk
  have hsplit : ∃ before after,
      (handleKeyEvent kl e).2 = before ++ kl.callbacks.index c.Name ++ after := by
    obtain ⟨pre, post, hpp⟩ := List.append_of_mem hc
    rw [handleKeyEvent_calls, hpp]
    refine ⟨pre.flatMap (fun c => if isCombinationActive (handleKeyEvent kl e).1 c
        then kl.callbacks.index c.Name else []),
      post.flatMap (fun c => if isCombinationActive (handleKeyEvent kl e).1 c
        then kl.callbacks.index c.Name else []), ?_⟩
    rw [List.flatMap_append, List.flatMap_cons, if_pos hact, List.append_assoc]
  refine ⟨hact, ?_, hsplit, ?_, ?_⟩
  · intro t
    rw [checkCombination_eq, if_pos hact]
    rfl
  · obtain ⟨h, hm⟩ := List.exists_mem_of_ne_nil _ hh
    refine ⟨h, hm, ?_⟩
    rw [mem_handleKeyEvent_calls]
    exact ⟨c, hc, (isCombinationActive_iff _ c).1 hact, hm⟩
  · intro rest hrun r hr
    obtain ⟨before, after, hba⟩ := hsplit
    refine ⟨before, after ++ (listenLoop (handleKeyEvent kl e).1 rest).calls, ?_⟩
    simp [listenLoop, hrun, hr, hkey, observeStop, hba]

/-- C4 at a concrete listener: chord `[30, 48]` held, then a press of key 46. -/
theorem C4_level_triggered_witness :
    isCombinationActive (handleKeyEvent heldListener (pressEvent 46)).1
      { Name := "a+b", Keys := [30, 48] } = true ∧
    (handleKeyEvent heldListener (pressEvent 46)).2 = [⟨7⟩] :=
  ⟨(C4_level_triggered heldListener { Name := "a+b", Keys := [30, 48] }
      (by simp [heldListener, handleKeyEvents, handleKeyEvent, chordListener, OnCombination,
        AddCombination, NewKeyboardListener])
      (by decide) (by decide) (pressEvent 46) rfl (by decide)).1,
    by decide⟩

/-! ## The key-state table -/

theorem bne_zero_eq (v : Int) : (v != 0) = decide (v ≠ 0) := by
  by_cases h : v = 0 <;> simp [h]

theorem handleKeyEvent_running (kl : KeyboardListener) (e : InputEvent) :
    (handleKeyEvent kl e).1.running = kl.running := rfl

theorem listenLoop_cons_ok (kl : KeyboardListener) (s : ReadStep) (rest : List ReadStep)
    (hrun : kl.running = true) (herr : s.result.err = none) (hstop : s.stopped = false) :
    (listenLoop kl (s :: rest)).kl =
      if (decodeEvent (bufferAfterRead s.result)).Typ = EV_KEY then
        (listenLoop (handleKeyEvent kl (decodeEvent (bufferAfterRead s.result))).1 rest).kl
      else (listenLoop kl rest).kl := by
  simp only [listenLoop, hrun, binaryRead, herr, hstop, observeStop, Bool.not_true,
    Bool.false_eq_true, if_false]
  split <;> rfl

theorem listenLoop_ok_index (steps : List ReadStep) :
    ∀ (kl : KeyboardListener), kl.running = true →
      (∀ s ∈ steps, s.result.err = none ∧ s.stopped = false) → ∀ k : Nat,
      (listenLoop kl steps).kl.keyStates.index k =
        match ((steps.map (fun s => decodeEvent (bufferAfterRead s.result))).filter
            (fun e => decide (e.Typ = EV_KEY ∧ e.Code = k))).getLast? with
        | some e => decide (e.Value ≠ 0)
        | none => kl.keyStates.index k := by
  induction steps with
  | nil => intro kl _ _ k; simp [listenLoop]
  | cons s rest ih =>
    intro kl hrun hok k
    have hs := hok s (List.mem_cons_self _ _)
    have hrest : ∀ s ∈ rest, s.result.err = none ∧ s.stopped = false :=
      fun x hx => hok x (List.mem_cons_of_mem _ hx)
    rw [listenLoop_cons_ok kl s rest hrun hs.1 hs.2]
    generalize hev : decodeEvent (bufferAfterRead s.result) = ev
    simp only [List.map_cons, hev]
    by_cases hty : ev.Typ = EV_KEY
    · rw [if_pos hty, ih _ (by rw [handleKeyEvent_running]; exact hrun) hrest k]
      by_cases hk : ev.Code = k
      · rw [List.filter_cons_of_pos (by simp [hty, hk]), List.getLast?_cons]
        cases hl : ((rest.map (fun s => decodeEvent (bufferAfterRead s.result))).filter
            (fun e => decide (e.Typ = EV_KEY ∧ e.Code = k))).getLast? with
        | none =>
          simp only [Option.getD_none]
          rw [handleKeyEvent_state]
          simp only []
          rw [← hk, GoMap.index_set_same]
          exact bne_zero_eq _
        | some e' => simp
      · rw [List.filter_cons_of_neg (by simp [hk])]
        cases hl : ((rest.map (fun s => decodeEvent (bufferAfterRead s.result))).filter
            (fun e => decide (e.Typ = EV_KEY ∧ e.Code = k))).getLast? with
        | none =>
          simp only []
          rw [handleKeyEvent_state]
          simp only []
          exact GoMap.index_set_other _ _ _ _ (fun h => hk h.symm)
        | some e' => simp
    · rw [if_neg hty, ih kl hrun hrest k, List.filter_cons_of_neg (by simp [hty])]

/-- C2: for a stream of successful reads processed by the listen loop from an
empty table, a key code reads pressed at the end exactly when the decoded
sequence holds a key-type event with that code and the last such event has a
nonzero value; a key-type event sets the entry of its own code to
`value != 0` and leaves every other entry as it was. -/
theorem C2_table_reflects_last_value (kl : KeyboardListener) (steps : List ReadStep)
    (hempty : kl.keyStates = GoMap.empty) (hrun : kl.running = true)
    (hok : ∀ s ∈ steps, s.result.err = none ∧ s.stopped = false) (k : Nat) :
    ((listenLoop kl steps).kl.keyStates.index k = true ↔
      ∃ e, ((steps.map (fun s => decodeEvent (bufferAfterRead s.result))).filter
          (fun e => decide (e.Typ = EV_KEY ∧ e.Code = k))).getLast? = some e ∧
        e.Value ≠ 0) ∧
    (∀ (kl' : KeyboardListener) (e : InputEvent),
      (handleKeyEvent kl' e).1.keyStates e.Code = some (decide (e.Value ≠ 0)) ∧
      (∀ k', k' ≠ e.Code → (handleKeyEvent kl' e).1.keyStates k' = kl'.keyStates k')) := by
  constructor
  · rw [listenLoop_ok_index steps kl hrun hok k, hempty]
    cases ((steps.map (fun s => decodeEvent (bufferAfterRead s.result))).filter
        (fun e => decide (e.Typ = EV_KEY ∧ e.Code = k))).getLast? with
    | none => simp [GoMap.index_empty]
    | some e => simp
  · intro kl' e
    constructor
    · simp only [handleKeyEvent, GoMap.set, if_true, bne_zero_eq]
    · intro k' hk'
      simp [handleKeyEvent, GoMap.set, hk']

/-- C2 at a concrete stream: an auto-repeat record of key 30 followed by a
release record of key 48 leaves key 30 reading pressed. -/
theorem C2_table_reflects_last_value_witness :
    (listenLoop runningListener [bytesRead repeatRecord, bytesRead releaseRecord]).kl.keyStates.index
      30 = true :=
  ((C2_table_reflects_last_value runningListener
      [bytesRead repeatRecord, bytesRead releaseRecord] rfl rfl (by decide) 30).1).2
    ⟨decodeEvent repeatRecord, by decide, by decide⟩

/-! ## Decoding -/

theorem littleEndian_lt (l : List Nat) (h : ∀ x ∈ l, x < 256) :
    littleEndian l < 256 ^ l.length := by
  induction l with
  | nil => simp [littleEndian]
  | cons b rest ih =>
    have hb : b < 256 := h b (List.mem_cons_self _ _)
    have hr := ih (fun x hx => h x (List.mem_cons_of_mem _ hx))
    simp only [littleEndian, List.length_cons, pow_succ]
    omega

theorem littleEndian_eq_sum (l : List Nat) :
    littleEndian l = ∑ i in Finset.range l.length, l.getD i 0 * 256 ^ i := by
  induction l with
  | nil => simp [littleEndian]
  | cons b rest ih =>
    rw [List.length_cons, Finset.sum_range_succ', littleEndian, ih, Finset.mul_sum]
    simp only [List.getD_cons_succ, List.getD_cons_zero, pow_zero, mul_one, pow_succ]
    rw [add_comm]
    congr 1
    apply Finset.sum_congr rfl
    intro i _
    ring

theorem slice_length (b : List Nat) (lo hi : Nat) (h : hi ≤ b.length) :
    (slice b lo hi).length = hi - lo := by
  simp [slice]
  omega

theorem slice_getD (b : List Nat) (lo hi i : Nat) (h : i < hi - lo) :
    (slice b lo hi).getD i 0 = b.getD (lo + i) 0 := by
  simp [slice, List.getD_eq_getElem?_getD, List.getElem?_take, h]

theorem littleEndian_slice (b : List Nat) (lo hi : Nat) (h : hi ≤ b.length) :
    littleEndian (slice b lo hi) = wireUnsigned b lo (hi - lo) := by
  rw [littleEndian_eq_sum, slice_length b lo hi h, wireUnsigned]
  apply Finset.sum_congr rfl
  intro i hi'
  rw [slice_getD b lo hi i (Finset.mem_range.1 hi')]

theorem slice_bytes (b : List Nat) (lo hi : Nat) (h : ∀ x ∈ b, x < 256) :
    ∀ x ∈ slice b lo hi, x < 256 := by
  intro x hx
  exact h x (List.mem_of_mem_drop (List.mem_of_mem_take hx))

theorem leBytes_length (n v : Nat) : (leBytes n v).length = n := by
  induction n generalizing v with
  | zero => rfl
  | succ n ih => simp [leBytes, ih]

theorem leBytes_lt (n v : Nat) : ∀ x ∈ leBytes n v, x < 256 := by
  induction n generalizing v with
  | zero => simp [leBytes]
  | succ n ih =>
    intro x hx
    simp only [leBytes, List.mem_cons] at hx
    rcases hx with rfl | hx
    · exact Nat.mod_lt _ (by decide)
    · exact ih _ x hx

theorem littleEndian_leBytes (n v : Nat) : littleEndian (leBytes n v) = v % 256 ^ n := by
  induction n generalizing v with
  | zero => simp [leBytes, littleEndian, Nat.mod_one]
  | succ n ih => rw [leBytes, littleEndian, ih, pow_succ', Nat.mod_mul]

theorem leBytes_littleEndian (l : List Nat) (h : ∀ x ∈ l, x < 256) :
    leBytes l.length (littleEndian l) = l := by
  induction l with
  | nil => rfl
  | cons b rest ih =>
    have hb : b < 256 := h b (List.mem_cons_self _ _)
    have hr := ih (fun x hx => h x (List.mem_cons_of_mem _ hx))
    have h1 : (b + 256 * littleEndian rest) % 256 = b := by omega
    have h2 : (b + 256 * littleEndian rest) / 256 = littleEndian rest := by omega
    rw [List.length_cons, littleEndian, leBytes, h1, h2, hr]

theorem slice_append_slice (b : List Nat) (lo mid hi : Nat) (h1 : lo ≤ mid) (h2 : mid ≤ hi) :
    slice b lo mid ++ slice b mid hi = slice b lo hi := by
  unfold slice
  have hd : List.drop mid b = List.drop (mid - lo) (List.drop lo b) := by
    rw [List.drop_drop]
    congr 1
    omega
  have ht : List.take (mid - lo) (List.drop lo b) =
      List.take (mid - lo) (List.take (hi - lo) (List.drop lo b)) := by
    rw [List.take_take]
    congr 1
    omega
  have hd2 : List.take (hi - mid) (List.drop (mid - lo) (List.drop lo b)) =
      List.drop (mid - lo) (List.take (hi - lo) (List.drop lo b)) := by
    rw [List.drop_take]
    congr 1
    omega
  rw [hd, ht, hd2, List.take_append_drop]

theorem buffer_split (b : List Nat) (h : b.length = 24) :
    slice b 0 8 ++ slice b 8 16 ++ slice b 16 18 ++ slice b 18 20 ++ slice b 20 24 = b := by
  rw [slice_append_slice b 0 8 16 (by omega) (by omega),
    slice_append_slice b 0 16 18 (by omega) (by omega),
    slice_append_slice b 0 18 20 (by omega) (by omega),
    slice_append_slice b 0 20 24 (by omega) (by omega)]
  simp [slice, ← h]

theorem slices_of_append (s0 s1 s2 s3 s4 : List Nat) (h0 : s0.length = 8)
    (h1 : s1.length = 8) (h2 : s2.length = 2) (h3 : s3.length = 2) (h4 : s4.length = 4) :
    slice (s0 ++ s1 ++ s2 ++ s3 ++ s4) 0 8 = s0 ∧
    slice (s0 ++ s1 ++ s2 ++ s3 ++ s4) 8 16 = s1 ∧
    slice (s0 ++ s1 ++ s2 ++ s3 ++ s4) 16 18 = s2 ∧
    slice (s0 ++ s1 ++ s2 ++ s3 ++ s4) 18 20 = s3 ∧
    slice (s0 ++ s1 ++ s2 ++ s3 ++ s4) 20 24 = s4 := by
  simp only [slice, List.append_assoc]
  have d8 : ∀ t : List Nat, List.drop 8 (s0 ++ t) = t := fun t => List.drop_left' h0
  have d16 : ∀ t : List Nat, List.drop 16 (s0 ++ (s1 ++ t)) = t := by
    intro t
    rw [show 16 = 8 + 8 from rfl, ← List.drop_drop, d8, List.drop_left' h1]
  have d18 : ∀ t : List Nat, List.drop 18 (s0 ++ (s1 ++ (s2 ++ t))) = t := by
    intro t
    rw [show 18 = 16 + 2 from rfl, ← List.drop_drop, d16, List.drop_left' h2]
  have d20 : ∀ t : List Nat, List.drop 20 (s0 ++ (s1 ++ (s2 ++ (s3 ++ t)))) = t := by
    intro t
    rw [show 20 = 18 + 2 from rfl, ← List.drop_drop, d18, List.drop_left' h3]
  refine ⟨?_, ?_, ?_, ?_, ?_⟩
  · exact List.take_left' h0
  · rw [d8]; exact List.take_left' h1
  · rw [d16]; exact List.take_left' h2
  · rw [d18]; exact List.take_left' h3
  · rw [d20]; simp [← h4]

theorem int64_range (u : Nat) : -(2 : Int) ^ 63 ≤ int64 u ∧ int64 u < 2 ^ 63 := by
  unfold int64
  split <;> constructor <;> omega

theorem int32_range (u : Nat) : -(2 : Int) ^ 31 ≤ int32 u ∧ int32 u < 2 ^ 31 := by
  unfold int32
  split <;> constructor <;> omega

theorem int64_encode (u : Nat) (h : u < 2 ^ 64) : (int64 u % 2 ^ 64).toNat = u := by
  unfold int64
  split <;> omega

theorem int32_encode (u : Nat) (h : u < 2 ^ 32) : (int32 u % 2 ^ 32).toNat = u := by
  unfold int32
  split <;> omega

theorem int64_decode (x : Int) (h1 : -(2 : Int) ^ 63 ≤ x) (h2 : x < 2 ^ 63) :
    int64 (x % 2 ^ 64).toNat = x := by
  unfold int64
  split <;> omega

theorem int32_decode (x : Int) (h1 : -(2 : Int) ^ 31 ≤ x) (h2 : x < 2 ^ 31) :
    int32 (x % 2 ^ 32).toNat = x := by
  unfold int32
  split <;> omega

theorem int64_eq_wireSigned (u : Nat) (h : u < 2 ^ 64) : int64 u = wireSigned 64 u := by
  unfold int64 wireSigned
  rw [Nat.mod_eq_of_lt h]

theorem int32_eq_wireSigned (u : Nat) (h : u < 2 ^ 32) : int32 u = wireSigned 32 u := by
  unfold int32 wireSigned
  rw [Nat.mod_eq_of_lt h]

theorem Uint64_eq (s : List Nat) (hl : s.length = 8) (hb : ∀ x ∈ s, x < 256) :
    LittleEndian.Uint64 s = littleEndian s := by
  have h := littleEndian_lt s hb
  rw [hl] at h
  rw [LittleEndian.Uint64, List.take_of_length_le (by omega)]
  exact Nat.mod_eq_of_lt (by norm_num at h ⊢; exact h)

theorem Uint32_eq (s : List Nat) (hl : s.length = 4) (hb : ∀ x ∈ s, x < 256) :
    LittleEndian.Uint32 s = littleEndian s := by
  have h := littleEndian_lt s hb
  rw [hl] at h
  rw [LittleEndian.Uint32, List.take_of_length_le (by omega)]
  exact Nat.mod_eq_of_lt (by norm_num at h ⊢; exact h)

theorem Uint16_eq (s : List Nat) (hl : s.length = 2) (hb : ∀ x ∈ s, x < 256) :
    LittleEndian.Uint16 s = littleEndian s := by
  have h := littleEndian_lt s hb
  rw [hl] at h
  rw [LittleEndian.Uint16, List.take_of_length_le (by omega)]
  exact Nat.mod_eq_of_lt (by norm_num at h ⊢; exact h)

theorem Uint64_lt (s : List Nat) : LittleEndian.Uint64 s < 2 ^ 64 :=
  Nat.mod_lt _ (by norm_num)

theorem Uint32_lt (s : List Nat) : LittleEndian.Uint32 s < 2 ^ 32 :=
  Nat.mod_lt _ (by norm_num)

theorem Uint16_lt (s : List Nat) : LittleEndian.Uint16 s < 2 ^ 16 :=
  Nat.mod_lt _ (by norm_num)

theorem decodeEvent_inRange (b : List Nat) : (decodeEvent b).InRange :=
  ⟨int64_range _, int64_range _, Uint16_lt _, Uint16_lt _, int32_range _⟩

theorem encodeEvent_isBuffer (e : InputEvent) : IsBuffer (encodeEvent e) := by
  constructor
  · simp [encodeEvent, leBytes_length]
  · intro x hx
    simp only [encodeEvent, List.mem_append] at hx
    rcases hx with (((hx | hx) | hx) | hx) | hx <;> exact leBytes_lt _ _ x hx

theorem decodeEvent_encodeEvent (e : InputEvent) (h : e.InRange) :
    decodeEvent (encodeEvent e) = e := by
  obtain ⟨⟨hs1, hs2⟩, ⟨hu1, hu2⟩, ht, hc, hv1, hv2⟩ := h
  obtain ⟨e0, e1, e2, e3, e4⟩ := slices_of_append
    (leBytes 8 (e.Time.Sec % 2 ^ 64).toNat) (leBytes 8 (e.Time.Usec % 2 ^ 64).toNat)
    (leBytes 2 e.Typ) (leBytes 2 e.Code) (leBytes 4 (e.Value % 2 ^ 32).toNat)
    (leBytes_length _ _) (leBytes_length _ _) (leBytes_length _ _) (leBytes_length _ _)
    (leBytes_length _ _)
  have hS : (e.Time.Sec % 2 ^ 64).toNat % 256 ^ 8 = (e.Time.Sec % 2 ^ 64).toNat := by
    norm_num; omega
  have hU : (e.Time.Usec % 2 ^ 64).toNat % 256 ^ 8 = (e.Time.Usec % 2 ^ 64).toNat := by
    norm_num; omega
  have hV : (e.Value % 2 ^ 32).toNat % 256 ^ 4 = (e.Value % 2 ^ 32).toNat := by
    norm_num; omega
  have hT : e.Typ % 256 ^ 2 = e.Typ := by norm_num; omega
  have hC : e.Code % 256 ^ 2 = e.Code := by norm_num; omega
  unfold decodeEvent encodeEvent
  rw [e0, e1, e2, e3, e4,
    Uint64_eq _ (leBytes_length _ _) (leBytes_lt _ _),
    Uint64_eq _ (leBytes_length _ _) (leBytes_lt _ _),
    Uint16_eq _ (leBytes_length _ _) (leBytes_lt _ _),
    Uint16_eq _ (leBytes_length _ _) (leBytes_lt _ _),
    Uint32_eq _ (leBytes_length _ _) (leBytes_lt _ _)]
  simp only [littleEndian_leBytes, hS, hU, hV, hT, hC]
  rw [int64_decode _ hs1 hs2, int64_decode _ hu1 hu2, int32_decode _ hv1 hv2]

theorem encodeEvent_decodeEvent (b : List Nat) (h : IsBuffer b) :
    encodeEvent (decodeEvent b) = b := by
  obtain ⟨hl, hb⟩ := h
  have l0 := slice_length b 0 8 (by omega)
  have l1 := slice_length b 8 16 (by omega)
  have l2 := slice_length b 16 18 (by omega)
  have l3 := slice_length b 18 20 (by omega)
  have l4 := slice_length b 20 24 (by omega)
  unfold encodeEvent decodeEvent
  simp only []
  rw [int64_encode _ (Uint64_lt _), int64_encode _ (Uint64_lt _), int32_encode _ (Uint32_lt _),
    Uint64_eq _ l0 (slice_bytes b _ _ hb), Uint64_eq _ l1 (slice_bytes b _ _ hb),
    Uint16_eq _ l2 (slice_bytes b _ _ hb), Uint16_eq _ l3 (slice_bytes b _ _ hb),
    Uint32_eq _ l4 (slice_bytes b _ _ hb)]
  have r0 := leBytes_littleEndian _ (slice_bytes b 0 8 hb)
  have r1 := leBytes_littleEndian _ (slice_bytes b 8 16 hb)
  have r2 := leBytes_littleEndian _ (slice_bytes b 16 18 hb)
  have r3 := leBytes_littleEndian _ (slice_bytes b 18 20 hb)
  have r4 := leBytes_littleEndian _ (slice_bytes b 20 24 hb)
  rw [l0] at r0
  rw [l1] at r1
  rw [l2] at r2
  rw [l3] at r3
  rw [l4] at r4
  rw [r0, r1, r2, r3, r4]
  exact buffer_split b hl

/-- C3: for a 24-byte buffer the decoded event has as seconds the signed
64-bit little-endian number in bytes 0..7, as microseconds the one in bytes
8..15, as type the unsigned 16-bit number in bytes 16..17, as code the one in
bytes 18..19 and as value the signed 32-bit number in bytes 20..23; this is
what `binaryRead` returns for a read that fills the buffer; decoding is a
bijection from the 24-byte buffers onto the events with fields in range, its
inverse being the little-endian encoding. -/
theorem C3_decode_layout (b : List Nat) (hb : IsBuffer b) :
    decodeEvent b =
      { Time :=
          { Sec := wireSigned 64 (wireUnsigned b 0 8)
            Usec := wireSigned 64 (wireUnsigned b 8 8) }
        Typ := wireUnsigned b 16 2
        Code := wireUnsigned b 18 2
        Value := wireSigned 32 (wireUnsigned b 20 4) } ∧
    binaryRead { data := b, err := none } = .ok (decodeEvent b) ∧
    encodeEvent (decodeEvent b) = b ∧
    (∀ e : InputEvent, e.InRange →
      IsBuffer (encodeEvent e) ∧ decodeEvent (encodeEvent e) = e) ∧
    Set.BijOn decodeEvent {b | IsBuffer b} {e | e.InRange} := by
  refine ⟨?_, ?_, encodeEvent_decodeEvent b hb,
    fun e he => ⟨encodeEvent_isBuffer e, decodeEvent_encodeEvent e he⟩, ?_, ?_, ?_⟩
  · obtain ⟨hl, hbytes⟩ := hb
    have l0 := slice_length b 0 8 (by omega)
    have l1 := slice_length b 8 16 (by omega)
    have l2 := slice_length b 16 18 (by omega)
    have l3 := slice_length b 18 20 (by omega)
    have l4 := slice_length b 20 24 (by omega)
    have w0 := littleEndian_slice b 0 8 (by omega)
    have w1 := littleEndian_slice b 8 16 (by omega)
    have w2 := littleEndian_slice b 16 18 (by omega)
    have w3 := littleEndian_slice b 18 20 (by omega)
    have w4 := littleEndian_slice b 20 24 (by omega)
    have u0 := Uint64_eq _ l0 (slice_bytes b _ _ hbytes)
    have u1 := Uint64_eq _ l1 (slice_bytes b _ _ hbytes)
    have u2 := Uint16_eq _ l2 (slice_bytes b _ _ hbytes)
    have u3 := Uint16_eq _ l3 (slice_bytes b _ _ hbytes)
    have u4 := Uint32_eq _ l4 (slice_bytes b _ _ hbytes)
    unfold decodeEvent
    rw [int64_eq_wireSigned _ (Uint64_lt _), int64_eq_wireSigned _ (Uint64_lt _),
      int32_eq_wireSigned _ (Uint32_lt _), u0, u1, u2, u3, u4, w0, w1, w2, w3, w4]
  · have hpad : bufferAfterRead { data := b, err := none } = b := by
      simp [bufferAfterRead, hb.1, List.take_of_length_le]
    simp [binaryRead, hpad]
  · intro x _
    exact decodeEvent_inRange x
  · intro x hx y hy hxy
    have h1 := encodeEvent_decodeEvent x hx
    have h2 := encodeEvent_decodeEvent y hy
    rw [← h1, ← h2, hxy]
  · intro e he
    exact ⟨encodeEvent e, encodeEvent_isBuffer e, decodeEvent_encodeEvent e he⟩

/-- C3 at the record of an auto-repeat event of key 30. -/
theorem C3_decode_layout_witness :
    IsBuffer repeatRecord ∧
    binaryRead { data := repeatRecord, err := none } = .ok (decodeEvent repeatRecord) ∧
    encodeEvent (decodeEvent repeatRecord) = repeatRecord :=
  ⟨⟨rfl, by decide⟩,
    (C3_decode_layout repeatRecord ⟨rfl, by decide⟩).2.1,
    (C3_decode_layout repeatRecord ⟨rfl, by decide⟩).2.2.1⟩

/-! ## The listen loop -/

/-- C6: an iteration of the listen loop whose read decodes to an event of a
type other than `EV_KEY` hands nothing to `handleKeyEvent`: the loop goes on
with the next record from a listener whose key-state table, combination list
and callback map are the ones before the iteration, and the iteration adds no
handler invocation and no log line, whatever chords are fully pressed. -/
theorem C6_non_key_event_discarded (kl : KeyboardListener) (s : ReadStep)
    (rest : List ReadStep) (e : InputEvent) (hrun : kl.running = true)
    (hread : binaryRead s.result = .ok e) (hty : e.Typ ≠ EV_KEY) :
    listenLoop kl (s :: rest) = listenLoop (observeStop kl s.stopped) rest ∧
    (observeStop kl s.stopped).keyStates = kl.keyStates ∧
    (observeStop kl s.stopped).combinations = kl.combinations ∧
    (observeStop kl s.stopped).callbacks = kl.callbacks ∧
    (s.stopped = false → listenLoop kl (s :: rest) = listenLoop kl rest) ∧
    (s.stopped = false →
      listenLoop kl [s] =
        { kl := kl, calls := [], log := [], remaining := [], exited := false }) := by
  have h1 : listenLoop kl (s :: rest) = listenLoop (observeStop kl s.stopped) rest := by
    simp [listenLoop, hrun, hread, hty]
  refine ⟨h1, ?_, ?_, ?_, ?_, ?_⟩
  · unfold observeStop; split <;> rfl
  · unfold observeStop; split <;> rfl
  · unfold observeStop; split <;> rfl
  · intro hs
    rw [h1, hs]
    rfl
  · intro hs
    have h2 : listenLoop kl [s] = listenLoop (observeStop kl s.stopped) [] := by
      simp [listenLoop, hrun, hread, hty]
    rw [h2, hs]
    simp [listenLoop, observeStop, hrun]

/-- C6 at a concrete listener: with the chord `[30, 48]` held, a
synchronisation record invokes nothing and the loop reads on. -/
theorem C6_non_key_event_discarded_witness :
    listenLoop heldRunningListener [bytesRead synRecord, bytesRead repeatRecord] =
      listenLoop heldRunningListener [bytesRead repeatRecord] ∧
    (listenLoop heldRunningListener [bytesRead repeatRecord]).calls = [⟨7⟩] :=
  ⟨(C6_non_key_event_discarded heldRunningListener (bytesRead synRecord)
      [bytesRead repeatRecord] (decodeEvent synRecord) rfl rfl (by decide)).2.2.2.2.1 rfl,
    by decide⟩

/-- C5 as stated fails: a read that delivers 23 bytes and no error is not
reported by `binaryRead`; the buffer, its last byte still zero, is decoded as
a press of key 30, the event reaches the key-state table and the matcher, and
the loop goes on to the next read. -/
theorem C5_short_read_counterexample :
    (shortPressRecord 30).length = 23 ∧
    binaryRead { data := shortPressRecord 30, err := none } = .ok (pressEvent 30) ∧
    (listenLoop runningListener
      [bytesRead (shortPressRecord 30), bytesRead (shortPressRecord 48)]).kl.keyStates.index
        30 = true ∧
    (listenLoop runningListener
      [bytesRead (shortPressRecord 30), bytesRead (shortPressRecord 48)]).calls = [⟨7⟩] ∧
    (listenLoop runningListener
      [bytesRead (shortPressRecord 30), bytesRead (shortPressRecord 48)]).log = [] ∧
    (listenLoop runningListener
      [bytesRead (shortPressRecord 30), bytesRead (shortPressRecord 48)]).exited = false ∧
    ¬ (∀ r : ReadResult, r.data.length < 24 → ∃ err, binaryRead r = .error err) := by
  refine ⟨rfl, ?_, by decide, by decide, by decide, by decide, ?_⟩
  · simp only [binaryRead]
    exact congrArg Except.ok (by decide)
  intro h
  obtain ⟨err, herr⟩ := h { data := shortPressRecord 30, err := none } (by decide)
  simp [binaryRead] at herr

/-- C5, amended: `binaryRead` reports an error exactly when the read itself
returns one, whatever the number of bytes delivered.  For every such read the
buffer is not decoded, the key-state table, the combination list and the
callback map stay as they were, no handler is invoked, and the listen loop
returns without reading the rest of the stream. -/
theorem C5_read_error_terminates (kl : KeyboardListener) (s : ReadStep)
    (rest : List ReadStep) (err : String) (hrun : kl.running = true)
    (herr : s.result.err = some err) :
    binaryRead s.result = .error err ∧
    (∀ r : ReadResult, (∃ e, binaryRead r = .error e) ↔ r.err ≠ none) ∧
    (listenLoop kl (s :: rest)).kl = observeStop kl s.stopped ∧
    (listenLoop kl (s :: rest)).kl.keyStates = kl.keyStates ∧
    (listenLoop kl (s :: rest)).kl.combinations = kl.combinations ∧
    (listenLoop kl (s :: rest)).kl.callbacks = kl.callbacks ∧
    (listenLoop kl (s :: rest)).calls = [] ∧
    (listenLoop kl (s :: rest)).exited = true ∧
    (listenLoop kl (s :: rest)).remaining = rest := by
  have hb : binaryRead s.result = .error err := by simp [binaryRead, herr]
  have hl : listenLoop kl (s :: rest) =
      { kl := observeStop kl s.stopped
        calls := []
        log := if (observeStop kl s.stopped).running then ["Read error: " ++ err] else []
        remaining := rest
        exited := true } := by
    simp [listenLoop, hrun, hb]
  refine ⟨hb, ?_, ?_, ?_, ?_, ?_, ?_, ?_, ?_⟩
  · intro r
    cases h : r.err with
    | none => simp [binaryRead, h]
    | some e => simp [binaryRead, h]
  · rw [hl]
  · rw [hl]; unfold observeStop; split <;> rfl
  · rw [hl]; unfold observeStop; split <;> rfl
  · rw [hl]; unfold observeStop; split <;> rfl
  · rw [hl]
  · rw [hl]
  · rw [hl]

/-- C5 (amended) at a concrete stream: an end-of-file read with the chord
held, followed by a record that is never read. -/
theorem C5_read_error_terminates_witness :
    (listenLoop heldRunningListener
      [{ result := { data := [], err := some "EOF" }, stopped := false },
        bytesRead repeatRecord]).calls = [] ∧
    (listenLoop heldRunningListener
      [{ result := { data := [], err := some "EOF" }, stopped := false },
        bytesRead repeatRecord]).remaining = [bytesRead repeatRecord] :=
  ⟨(C5_read_error_terminates heldRunningListener
      { result := { data := [], err := some "EOF" }, stopped := false }
      [bytesRead repeatRecord] "EOF" rfl rfl).2.2.2.2.2.2.1,
    (C5_read_error_terminates heldRunningListener
      { result := { data := [], err := some "EOF" }, stopped := false }
      [bytesRead repeatRecord] "EOF" rfl rfl).2.2.2.2.2.2.2.2⟩

/-! ## Sequences of key presses -/

theorem handleKeyEvent_pressEvent_state (kl : KeyboardListener) (a : Nat) :
    (handleKeyEvent kl (pressEvent a)).1 =
      { kl with keyStates := kl.keyStates.set a true } := rfl

theorem handleKeyEvent_single_chord (kl : KeyboardListener) (c : KeyCombination)
    (h : Callback) (hcomb : kl.combinations = [c]) (hcb : kl.callbacks.index c.Name = [h])
    (e : InputEvent) :
    (handleKeyEvent kl e).2 =
      if isCombinationActive (handleKeyEvent kl e).1 c then [h] else [] := by
  rw [handleKeyEvent_calls, hcomb]
  simp [hcb]

theorem count_flatMap_zero (h : Callback) (f : KeyCombination → List Callback)
    (cs : List KeyCombination) (hf : ∀ c ∈ cs, h ∉ f c) : (cs.flatMap f).count h = 0 := by
  rw [List.count_eq_zero, List.mem_flatMap]
  rintro ⟨c, hc, hm⟩
  exact hf c hc hm

theorem count_handleKeyEvent (kl : KeyboardListener) (pre post : List KeyCombination)
    (c : KeyCombination) (h : Callback) (hcomb : kl.combinations = pre ++ c :: post)
    (hcb : kl.callbacks.index c.Name = [h])
    (hother : ∀ c' ∈ pre ++ post, h ∉ kl.callbacks.index c'.Name) (e : InputEvent) :
    (handleKeyEvent kl e).2.count h =
      if isCombinationActive (handleKeyEvent kl e).1 c then 1 else 0 := by
  have hz : ∀ cs : List KeyCombination, (∀ c' ∈ cs, c' ∈ pre ++ post) →
      (cs.flatMap (fun c => if isCombinationActive (handleKeyEvent kl e).1 c
        then kl.callbacks.index c.Name else [])).count h = 0 := by
    intro cs hcs
    apply count_flatMap_zero
    intro c' hc'
    split
    · exact hother c' (hcs c' hc')
    · simp
  rw [handleKeyEvent_calls, hcomb, List.flatMap_append, List.flatMap_cons, List.count_append,
    List.count_append, hz pre (fun c' hc' => List.mem_append_left _ hc'),
    hz post (fun c' hc' => List.mem_append_right _ hc'), hcb]
  split <;> simp

theorem traces_of_activity (c : KeyCombination) (h : Callback) (evs : List InputEvent) :
    ∀ kl : KeyboardListener, kl.combinations = [c] → kl.callbacks.index c.Name = [h] →
      (handleKeyEvents kl evs).2 =
        (activeAfterEach kl c evs).map (fun b => if b then [h] else []) := by
  induction evs with
  | nil => intro _ _ _; rfl
  | cons e rest ih =>
    intro kl hcomb hcb
    have hu : (handleKeyEvents kl (e :: rest)).2 =
        (handleKeyEvent kl e).2 :: (handleKeyEvents (handleKeyEvent kl e).1 rest).2 := rfl
    rw [hu, ih (handleKeyEvent kl e).1 hcomb hcb, handleKeyEvent_single_chord kl c h hcomb hcb]
    simp [activeAfterEach]

theorem counts_of_activity (pre post : List KeyCombination) (c : KeyCombination)
    (h : Callback) (evs : List InputEvent) :
    ∀ kl : KeyboardListener, kl.combinations = pre ++ c :: post →
      kl.callbacks.index c.Name = [h] →
      (∀ c' ∈ pre ++ post, h ∉ kl.callbacks.index c'.Name) →
      (handleKeyEvents kl evs).2.map (List.count h) =
        (activeAfterEach kl c evs).map (fun b => if b then 1 else 0) := by
  induction evs with
  | nil => intro _ _ _ _; rfl
  | cons e rest ih =>
    intro kl hcomb hcb hother
    have hu : (handleKeyEvents kl (e :: rest)).2 =
        (handleKeyEvent kl e).2 :: (handleKeyEvents (handleKeyEvent kl e).1 rest).2 := rfl
    rw [hu, List.map_cons, ih (handleKeyEvent kl e).1 hcomb hcb hother,
      count_handleKeyEvent kl pre post c h hcomb hcb hother]
    simp [activeAfterEach]

theorem activity_of_presses (c : KeyCombination) (order : List Nat) :
    ∀ (kl : KeyboardListener) (S : List Nat), (∀ k, kl.keyStates.index k = true ↔ k ∈ S) →
      order ≠ [] → order.Nodup → (∀ k ∈ order, k ∉ S) → (∀ k ∈ order, k ∈ c.Keys) →
      (∀ k ∈ c.Keys, k ∈ S ∨ k ∈ order) →
      activeAfterEach kl c (order.map pressEvent) =
        List.replicate (order.length - 1) false ++ [true] := by
  induction order with
  | nil => intro _ _ _ hne; exact absurd rfl hne
  | cons a rest ih =>
    intro kl S hS _ hnd hdisj hsub hcover
    have hstate := handleKeyEvent_pressEvent_state kl a
    have hS' : ∀ k, (handleKeyEvent kl (pressEvent a)).1.keyStates.index k = true ↔
        k ∈ a :: S := by
      intro k
      rw [hstate]
      simp only [List.mem_cons]
      by_cases hk : k = a
      · subst hk
        simp [GoMap.index_set_same]
      · rw [GoMap.index_set_other _ _ _ _ hk, hS k]
        simp [hk]
    cases rest with
    | nil =>
      have hact : isCombinationActive (handleKeyEvent kl (pressEvent a)).1 c = true := by
        rw [isCombinationActive_iff]
        intro k hk
        rw [hS' k]
        rcases hcover k hk with h1 | h1
        · exact List.mem_cons_of_mem _ h1
        · rw [List.mem_singleton] at h1
          rw [h1]
          exact List.mem_cons_self _ _
      simp [activeAfterEach, hact]
    | cons b rest' =>
      have hb : b ∈ a :: b :: rest' := List.mem_cons_of_mem _ (List.mem_cons_self _ _)
      have hba : b ≠ a := by
        intro hEq
        have := (List.nodup_cons.1 hnd).1
        exact this (hEq ▸ List.mem_cons_self _ _)
      have hnact : isCombinationActive (handleKeyEvent kl (pressEvent a)).1 c = false := by
        rw [Bool.eq_false_iff]
        intro hact
        have hall := (isCombinationActive_iff _ c).1 hact
        have hmem := (hS' b).1 (hall b (hsub b hb))
        rcases List.mem_cons.1 hmem with h1 | h1
        · exact hba h1
        · exact hdisj b hb h1
      have hrec := ih (handleKeyEvent kl (pressEvent a)).1 (a :: S) hS'
        (List.cons_ne_nil _ _) (List.nodup_cons.1 hnd).2
        (by
          intro k hk hkS
          rcases List.mem_cons.1 hkS with h1 | h1
          · exact (List.nodup_cons.1 hnd).1 (h1 ▸ hk)
          · exact hdisj k (List.mem_cons_of_mem _ hk) h1)
        (fun k hk => hsub k (List.mem_cons_of_mem _ hk))
        (by
          intro k hk
          rcases hcover k hk with h1 | h1
          · exact Or.inl (List.mem_cons_of_mem _ h1)
          · rcases List.mem_cons.1 h1 with h2 | h2
            · exact Or.inl (h2 ▸ List.mem_cons_self _ _)
            · exact Or.inr h2)
      have hunfold : activeAfterEach kl c ((a :: b :: rest').map pressEvent) =
          isCombinationActive (handleKeyEvent kl (pressEvent a)).1 c ::
            activeAfterEach (handleKeyEvent kl (pressEvent a)).1 c
              ((b :: rest').map pressEvent) := rfl
      rw [hunfold, hrec, hnact]
      simp [List.replicate_succ]

/-- C8: a chord `c` of `n >= 1` pairwise distinct keys stands once in the
combination list, with one handler `h` under its name that serves no other
chord of the list; the table is empty and the keys of `c` are pressed one
after the other in any order.  The chord is active after none of the first
`n - 1` events and after the last one, so `h` is invoked zero times on each of
the first `n - 1` events and exactly once on the `n`-th; when `c` is the only
chord the invocations are none, ..., none, `[h]`.  For `[A, B]`: press `A`,
press `B` invokes `h` on the press of `B`. -/
theorem C8_fires_on_last_press (kl : KeyboardListener) (pre post : List KeyCombination)
    (c : KeyCombination) (h : Callback) (order : List Nat)
    (hempty : kl.keyStates = GoMap.empty) (hcomb : kl.combinations = pre ++ c :: post)
    (hcb : kl.callbacks.index c.Name = [h])
    (hother : ∀ c' ∈ pre ++ post, h ∉ kl.callbacks.index c'.Name)
    (hne : c.Keys ≠ []) (hnd : c.Keys.Nodup) (hperm : order.Perm c.Keys) :
    activeAfterEach kl c (order.map pressEvent) =
      List.replicate (c.Keys.length - 1) false ++ [true] ∧
    (handleKeyEvents kl (order.map pressEvent)).2.map (List.count h) =
      List.replicate (c.Keys.length - 1) 0 ++ [1] ∧
    (pre = [] → post = [] →
      (handleKeyEvents kl (order.map pressEvent)).2 =
        List.replicate (c.Keys.length - 1) [] ++ [[h]]) ∧
    (∀ A B : Nat, c.Keys = [A, B] → order = [A, B] →
      (handleKeyEvents kl [pressEvent A, pressEvent B]).2.map (List.count h) = [0, 1]) := by
  have hact : activeAfterEach kl c (order.map pressEvent) =
      List.replicate (c.Keys.length - 1) false ++ [true] := by
    rw [← hperm.length_eq]
    refine activity_of_presses c order kl [] ?_ ?_
      (hperm.nodup_iff.2 hnd) (fun k _ hk => by simp at hk)
      (fun k hk => hperm.subset hk) (fun k hk => Or.inr (hperm.symm.subset hk))
    · intro k
      rw [hempty, GoMap.index_empty]
      simp
    · intro hEq
      rw [hEq] at hperm
      exact hne (List.Perm.eq_nil hperm.symm)
  have hcount : (handleKeyEvents kl (order.map pressEvent)).2.map (List.count h) =
      List.replicate (c.Keys.length - 1) 0 ++ [1] := by
    rw [counts_of_activity pre post c h _ kl hcomb hcb hother, hact]
    simp
  refine ⟨hact, hcount, ?_, ?_⟩
  · intro hpre hpost
    rw [hpre, hpost] at hcomb
    rw [traces_of_activity c h _ kl hcomb hcb, hact]
    simp
  · intro A B hk ho
    rw [ho, hk] at hcount
    exact hcount

/-- C8 at a concrete chord: `[29, 56, 46]` pressed in the order 46, 29, 56. -/
theorem C8_fires_on_last_press_witness :
    (handleKeyEvents
      (OnCombination (AddCombination (NewKeyboardListener "") "copy" [29, 56, 46]) "copy" ⟨1⟩)
      [pressEvent 46, pressEvent 29, pressEvent 56]).2 = [[], [], [⟨1⟩]] :=
  (C8_fires_on_last_press
    (OnCombination (AddCombination (NewKeyboardListener "") "copy" [29, 56, 46]) "copy" ⟨1⟩)
    [] [] { Name := "copy", Keys := [29, 56, 46] } ⟨1⟩ [46, 29, 56] rfl rfl (by decide)
    (by decide) (by decide) (by decide) (by decide)).2.2.1 rfl rfl

/-- C9: let `X` be a registered chord and `Y` a chord such that every key of
`X` is a key of `Y` (whatever their names and handlers).  On every key event
on which `Y` is active, in particular on every event on which the check of `Y`
invokes a handler, the check of `X` invokes the handlers of `X` too, and all of them appear among the invocations of that event.  For pairwise distinct `A`, `B`, `C` and the chords
`[A, B]` and `[A, B, C]` on a new listener: press `A` invokes nothing, press
`B` invokes the first handler only, press `C` invokes both. -/
theorem C9_subset_chord_fires_too (kl : KeyboardListener) (e : InputEvent)
    (X Y : KeyCombination) (hX : X ∈ kl.combinations) (hsub : ∀ k ∈ X.Keys, k ∈ Y.Keys) :
    ((isCombinationActive (handleKeyEvent kl e).1 Y = true ∨
        ∃ t, checkCombination (handleKeyEvent kl e).1 t Y ≠ t) →
      isCombinationActive (handleKeyEvent kl e).1 X = true ∧
      (∀ t, checkCombination (handleKeyEvent kl e).1 t X = t ++ kl.callbacks.index X.Name) ∧
      (∀ h ∈ kl.callbacks.index X.Name, h ∈ (handleKeyEvent kl e).2)) ∧
    (∀ (path n1 n2 : String) (h1 h2 : Callback) (A B C : Nat),
      n1 ≠ n2 → A ≠ B → A ≠ C → B ≠ C →
      (handleKeyEvents
        (OnCombination (OnCombination
          (AddCombination (AddCombination (NewKeyboardListener path) n1 [A, B]) n2 [A, B, C])
          n1 h1) n2 h2)
        [pressEvent A, pressEvent B, pressEvent C]).2 = [[], [h1], [h1, h2]]) := by
  have hstep : (isCombinationActive (handleKeyEvent kl e).1 Y = true ∨
        ∃ t, checkCombination (handleKeyEvent kl e).1 t Y ≠ t) →
      isCombinationActive (handleKeyEvent kl e).1 X = true ∧
      (∀ t, checkCombination (handleKeyEvent kl e).1 t X = t ++ kl.callbacks.index X.Name) ∧
      (∀ h ∈ kl.callbacks.index X.Name, h ∈ (handleKeyEvent kl e).2) := by
    intro hfire
    have hact : isCombinationActive (handleKeyEvent kl e).1 Y = true := by
      rcases hfire with h | ⟨t, ht⟩
      · exact h
      · by_contra hna
        apply ht
        rw [checkCombination_eq, if_neg hna, List.append_nil]
    have hYk := (isCombinationActive_iff _ Y).1 hact
    have hXk : ∀ k ∈ X.Keys, (handleKeyEvent kl e).1.keyStates.index k = true :=
      fun k hk => hYk k (hsub k hk)
    have hXa := (isCombinationActive_iff _ X).2 hXk
    refine ⟨hXa, ?_, ?_⟩
    · intro t
      rw [checkCombination_eq, if_pos hXa]
      rfl
    · intro h hh
      exact (mem_handleKeyEvent_calls kl e h).2 ⟨X, hX, hXk, hh⟩
  refine ⟨hstep, ?_⟩
  · intro path n1 n2 h1 h2 A B C hn hAB hAC hBC
    have hn' : n2 ≠ n1 := fun h => hn h.symm
    have hBA : B ≠ A := fun h => hAB h.symm
    have hCA : C ≠ A := fun h => hAC h.symm
    have hCB : C ≠ B := fun h => hBC h.symm
    have hd : (default : List Callback) = [] := rfl
    simp [handleKeyEvents, handleKeyEvent_calls, handleKeyEvent_state, OnCombination,
      AddCombination, NewKeyboardListener, isCombinationActive, keysAllPressed, GoMap.index,
      GoMap.set, GoMap.empty, pressEvent, keyEvent, hn, hn', hAB, hAC, hBC, hBA, hCA, hCB, hd]


/-- C9 at a concrete listener: chords `[30, 48]` and `[30, 48, 46]`, keys
pressed in the order 30, 48, 46. -/
theorem C9_subset_chord_fires_too_witness :
    (handleKeyEvents twoChordListener [pressEvent 30, pressEvent 48, pressEvent 46]).2 =
      [[], [⟨1⟩], [⟨1⟩, ⟨2⟩]] :=
  (C9_subset_chord_fires_too twoChordListener (pressEvent 30)
    { Name := "ab", Keys := [30, 48] } { Name := "abc", Keys := [30, 48, 46] }
    (by decide) (by decide)).2 "" "ab" "abc" ⟨1⟩ ⟨2⟩ 30 48 46
    (by decide) (by decide) (by decide) (by decide)

/-! ## Lifecycle -/

theorem Start_fields (fs : FileSystem) (kl : KeyboardListener) :
    (Start fs kl).1.keyStates = kl.keyStates ∧
    (Start fs kl).1.combinations = kl.combinations ∧
    (Start fs kl).1.callbacks = kl.callbacks := by
  unfold Start
  by_cases hp : kl.devicePath = ""
  · simp only [hp, if_true]
    cases FindKeyboardDevice fs with
    | error err => exact ⟨rfl, rfl, rfl⟩
    | ok devicePath =>
      simp only []
      cases fs.openError devicePath <;> exact ⟨rfl, rfl, rfl⟩
  · simp only [hp, if_false]
    cases fs.openError kl.devicePath <;> exact ⟨rfl, rfl, rfl⟩

theorem handleKeyEvent_calls_congr (kl1 kl2 : KeyboardListener) (e : InputEvent)
    (h1 : kl1.keyStates = kl2.keyStates) (h2 : kl1.combinations = kl2.combinations)
    (h3 : kl1.callbacks = kl2.callbacks) :
    (handleKeyEvent kl1 e).2 = (handleKeyEvent kl2 e).2 := by
  simp [handleKeyEvent_calls, handleKeyEvent_state, isCombinationActive, h1, h2, h3]

/-- C10 as stated fails: after a session in which keys 30 and 48 were pressed,
`Stop()` and a successful `Start()`, key 30 and key 48 still read pressed, the
table is not the empty one, and the chord `[30, 48]` fires on the first event
of the new session, a press of the unrelated key 46. -/
theorem C10_restart_counterexample :
    (Start exampleFileSystem
      (Stop (listenLoop runningListener
        [bytesRead (pressRecord 30), bytesRead (pressRecord 48)]).kl)).2 = none ∧
    restartedListener.running = true ∧
    restartedListener.keyStates.index 30 = true ∧
    restartedListener.keyStates.index 48 = true ∧
    restartedListener.keyStates ≠ GoMap.empty ∧
    (listenLoop restartedListener [bytesRead (pressRecord 46)]).calls = [⟨7⟩] := by
  refine ⟨by decide, by decide, by decide, by decide, ?_, by decide⟩
  intro h
  have h30 : restartedListener.keyStates.index 30 = true := by decide
  rw [h, GoMap.index_empty] at h30
  exact Bool.noConfusion h30

/-- C10, amended: `Stop()` followed by `Start()` leaves the key-state table,
the combination list and the callback map as they were when the previous
session ended; the table is empty only in a newly constructed listener.  Every
key code reads in the new session what it read at `Stop()`, so a key event of
the new session invokes the handlers it would have invoked without the
restart, and a chord fires as soon as all its keys read pressed, keys held
over from the previous session included. -/
theorem C10_restart_keeps_table (fs : FileSystem) (kl : KeyboardListener) :
    (Start fs (Stop kl)).1.keyStates = kl.keyStates ∧
    (Start fs (Stop kl)).1.combinations = kl.combinations ∧
    (Start fs (Stop kl)).1.callbacks = kl.callbacks ∧
    (∀ k, (Start fs (Stop kl)).1.keyStates.index k = kl.keyStates.index k) ∧
    (∀ e, (handleKeyEvent (Start fs (Stop kl)).1 e).2 = (handleKeyEvent kl e).2) ∧
    (∀ c ∈ kl.combinations, ∀ e : InputEvent,
      (∀ k ∈ c.Keys, (kl.keyStates.set e.Code (e.Value != 0)).index k = true) →
      ∀ h ∈ kl.callbacks.index c.Name, h ∈ (handleKeyEvent (Start fs (Stop kl)).1 e).2) ∧
    (∀ path, (NewKeyboardListener path).keyStates = GoMap.empty) := by
  obtain ⟨h1, h2, h3⟩ := Start_fields fs (Stop kl)
  have h1' : (Start fs (Stop kl)).1.keyStates = kl.keyStates := h1
  have h2' : (Start fs (Stop kl)).1.combinations = kl.combinations := h2
  have h3' : (Start fs (Stop kl)).1.callbacks = kl.callbacks := h3
  have hcalls : ∀ e, (handleKeyEvent (Start fs (Stop kl)).1 e).2 = (handleKeyEvent kl e).2 :=
    fun e => handleKeyEvent_calls_congr _ _ e h1' h2' h3'
  refine ⟨h1', h2', h3', fun k => by rw [h1'], hcalls, ?_, fun _ => rfl⟩
  intro c hc e hk h hh
  rw [hcalls e, mem_handleKeyEvent_calls]
  exact ⟨c, hc, hk, hh⟩

/-! ## Termination of the listen loop on a failed read -/

/-- C11: in the listen loop over a running flag and a stream of read results,
a failed read ends the loop: it returns, invokes no handler and leaves every
later stream item unread.  The failure is printed as a read error exactly when
the running flag is still true when the read fails; when `Stop()`, which sets
the flag to false, ran before the failure is examined, nothing is printed.  A
loop that finds the flag false at its head reads nothing and prints nothing. -/
theorem C11_read_failure_report (kl : KeyboardListener) (s : ReadStep)
    (rest : List ReadStep) (err : String) (hrun : kl.running = true)
    (herr : s.result.err = some err) :
    (listenLoop kl (s :: rest)).exited = true ∧
    (listenLoop kl (s :: rest)).remaining = rest ∧
    (listenLoop kl (s :: rest)).calls = [] ∧
    ((listenLoop kl (s :: rest)).log = ["Read error: " ++ err] ↔
      (observeStop kl s.stopped).running = true) ∧
    ((listenLoop kl (s :: rest)).log = [] ↔ (observeStop kl s.stopped).running = false) ∧
    ((observeStop kl s.stopped).running = true ↔ s.stopped = false) ∧
    (s.stopped = true → (listenLoop kl (s :: rest)).log = []) ∧
    (Stop kl).running = false ∧
    (observeStop kl true).running = (Stop kl).running ∧
    (∀ steps, (listenLoop (Stop kl) steps).log = [] ∧
      (listenLoop (Stop kl) steps).remaining = steps ∧
      (listenLoop (Stop kl) steps).exited = true) := by
  have hb : binaryRead s.result = .error err := by simp [binaryRead, herr]
  have hl : listenLoop kl (s :: rest) =
      { kl := observeStop kl s.stopped
        calls := []
        log := if (observeStop kl s.stopped).running then ["Read error: " ++ err] else []
        remaining := rest
        exited := true } := by
    simp [listenLoop, hrun, hb]
  have hobs : (observeStop kl s.stopped).running = true ↔ s.stopped = false := by
    cases hs : s.stopped <;> simp [observeStop, hrun]
  refine ⟨by rw [hl], by rw [hl], by rw [hl], ?_, ?_, hobs, ?_, rfl, rfl, ?_⟩
  · rw [hl]
    cases h : (observeStop kl s.stopped).running <;> simp
  · rw [hl]
    cases h : (observeStop kl s.stopped).running <;> simp
  · intro hs
    rw [hl]
    have : (observeStop kl s.stopped).running = false := by simp [observeStop, hs]
    simp [this]
  · intro steps
    cases steps with
    | nil => simp [listenLoop, Stop]
    | cons a l => simp [listenLoop, Stop]

/-- C11 at a concrete stream: with the chord held, a read that fails after
`Stop()` prints nothing, and the same failure without `Stop()` is printed. -/
theorem C11_read_failure_report_witness :
    (listenLoop heldRunningListener
      [{ result := { data := [], err := some "file already closed" }, stopped := true },
        bytesRead repeatRecord]).log = [] ∧
    (listenLoop heldRunningListener
      [{ result := { data := [], err := some "EOF" }, stopped := false },
        bytesRead repeatRecord]).log = ["Read error: EOF"] :=
  ⟨(C11_read_failure_report heldRunningListener
      { result := { data := [], err := some "file already closed" }, stopped := true }
      [bytesRead repeatRecord] "file already closed" rfl rfl).2.2.2.2.2.2.1 rfl,
    by decide⟩

/-! ## Registration -/

/-- C12: `AddCombination` is total; the combination list after the call is the
list before it followed by one entry with the given name and exactly the given
key list, whatever entries the list already holds; the callback map, the
key-state table, the device path, the file handle and the running flag stay
as they were. -/
theorem C12_AddCombination_appends (kl : KeyboardListener) (name : String)
    (keys : List Nat) :
    (AddCombination kl name keys).combinations =
      kl.combinations ++ [{ Name := name, Keys := keys }] ∧
    (AddCombination kl name keys).combinations.length = kl.combinations.length + 1 ∧
    (AddCombination kl name keys).callbacks = kl.callbacks ∧
    (AddCombination kl name keys).keyStates = kl.keyStates ∧
    (AddCombination kl name keys).devicePath = kl.devicePath ∧
    (AddCombination kl name keys).file = kl.file ∧
    (AddCombination kl name keys).running = kl.running ∧
    (AddCombination (AddCombination kl name keys) name keys).combinations =
      kl.combinations ++ [{ Name := name, Keys := keys }, { Name := name, Keys := keys }] := by
  refine ⟨rfl, ?_, rfl, rfl, rfl, rfl, rfl, ?_⟩
  · simp [AddCombination]
  · simp [AddCombination]

theorem OnCombination_index_same (kl : KeyboardListener) (name : String) (h : Callback) :
    (OnCombination kl name h).callbacks.index name = kl.callbacks.index name ++ [h] := by
  simp [OnCombination, GoMap.index, GoMap.set]

theorem OnCombination_foldl (hs : List Callback) :
    ∀ (kl : KeyboardListener) (name : String),
      (hs.foldl (fun l h => OnCombination l name h) kl).callbacks.index name =
        kl.callbacks.index name ++ hs ∧
      (∀ name', name' ≠ name →
        (hs.foldl (fun l h => OnCombination l name h) kl).callbacks name' =
          kl.callbacks name') ∧
      (hs.foldl (fun l h => OnCombination l name h) kl).combinations = kl.combinations ∧
      (hs.foldl (fun l h => OnCombination l name h) kl).keyStates = kl.keyStates := by
  induction hs with
  | nil => intro kl name; simp
  | cons h rest ih =>
    intro kl name
    obtain ⟨h1, h2, h3, h4⟩ := ih (OnCombination kl name h) name
    refine ⟨?_, ?_, ?_, ?_⟩
    · rw [List.foldl_cons, h1, OnCombination_index_same]
      simp
    · intro name' hne
      rw [List.foldl_cons, h2 name' hne]
      simp [OnCombination, GoMap.set, hne]
    · rw [List.foldl_cons, h3]
      rfl
    · rw [List.foldl_cons, h4]
      rfl

/-- C13: after `OnCombination(name, handler)` the handler list under `name` is
the list before the call (empty when the name was absent) followed by the new
handler, so `k` handlers registered under one name are all there in call
order; the entries of all other names, the combination list, the key-state
table, the device path, the file handle and the running flag stay as they
were.  Nothing requires the name to belong to a registered chord. -/
theorem C13_OnCombination_appends (kl : KeyboardListener) (name : String) (h : Callback) :
    (OnCombination kl name h).callbacks name = some (kl.callbacks.index name ++ [h]) ∧
    (OnCombination kl name h).callbacks.index name = kl.callbacks.index name ++ [h] ∧
    (kl.callbacks name = none → (OnCombination kl name h).callbacks.index name = [h]) ∧
    (∀ name', name' ≠ name → (OnCombination kl name h).callbacks name' = kl.callbacks name') ∧
    (OnCombination kl name h).combinations = kl.combinations ∧
    (OnCombination kl name h).keyStates = kl.keyStates ∧
    (OnCombination kl name h).devicePath = kl.devicePath ∧
    (OnCombination kl name h).file = kl.file ∧
    (OnCombination kl name h).running = kl.running ∧
    (∀ hs : List Callback,
      (hs.foldl (fun l h' => OnCombination l name h') kl).callbacks.index name =
        kl.callbacks.index name ++ hs ∧
      (∀ name', name' ≠ name →
        (hs.foldl (fun l h' => OnCombination l name h') kl).callbacks name' =
          kl.callbacks name') ∧
      (hs.foldl (fun l h' => OnCombination l name h') kl).combinations = kl.combinations ∧
      (hs.foldl (fun l h' => OnCombination l name h') kl).keyStates = kl.keyStates) := by
  refine ⟨?_, OnCombination_index_same kl name h, ?_, ?_, rfl, rfl, rfl, rfl, rfl,
    fun hs => OnCombination_foldl hs kl name⟩
  · simp [OnCombination, GoMap.set]
  · intro hnone
    rw [OnCombination_index_same]
    simp [GoMap.index, hnone]
    rfl
  · intro name' hne
    simp [OnCombination, GoMap.set, hne]

/-- C13 at a concrete listener: three handlers registered under a name that
no chord carries. -/
theorem C13_OnCombination_appends_witness :
    ([⟨2⟩, ⟨3⟩].foldl (fun l h' => OnCombination l "free" h')
      (OnCombination chordListener "free" ⟨1⟩)).callbacks.index "free" = [⟨1⟩, ⟨2⟩, ⟨3⟩] ∧
    (OnCombination chordListener "free" ⟨1⟩).callbacks "a+b" = chordListener.callbacks "a+b" :=
  ⟨((C13_OnCombination_appends (OnCombination chordListener "free" ⟨1⟩) "free" ⟨2⟩).2.2.2.2.2.2.2.2.2
      [⟨2⟩, ⟨3⟩]).1,
    (C13_OnCombination_appends chordListener "free" ⟨1⟩).2.2.2.1 "a+b" (by decide)⟩

/-! ## Key sets, repeated names and empty chords -/

theorem keysAllPressed_congr (m : GoMap Nat KeyState) (keys1 keys2 : List Nat)
    (hset : ∀ k, k ∈ keys1 ↔ k ∈ keys2) : keysAllPressed m keys1 = keysAllPressed m keys2 := by
  rw [Bool.eq_iff_iff, keysAllPressed_iff, keysAllPressed_iff]
  exact ⟨fun h k hk => h k ((hset k).2 hk), fun h k hk => h k ((hset k).1 hk)⟩

theorem handleKeyEvents_key_set (name : String) (keys1 keys2 : List Nat)
    (hset : ∀ k, k ∈ keys1 ↔ k ∈ keys2) (pre post : List KeyCombination)
    (evs : List InputEvent) :
    ∀ kl1 kl2 : KeyboardListener, kl1.keyStates = kl2.keyStates →
      kl1.callbacks = kl2.callbacks →
      kl1.combinations = pre ++ { Name := name, Keys := keys1 } :: post →
      kl2.combinations = pre ++ { Name := name, Keys := keys2 } :: post →
      (handleKeyEvents kl1 evs).2 = (handleKeyEvents kl2 evs).2 := by
  induction evs with
  | nil => intro _ _ _ _ _ _; rfl
  | cons e rest ih =>
    intro kl1 kl2 hk hc h1 h2
    have hu1 : (handleKeyEvents kl1 (e :: rest)).2 =
        (handleKeyEvent kl1 e).2 :: (handleKeyEvents (handleKeyEvent kl1 e).1 rest).2 := rfl
    have hu2 : (handleKeyEvents kl2 (e :: rest)).2 =
        (handleKeyEvent kl2 e).2 :: (handleKeyEvents (handleKeyEvent kl2 e).1 rest).2 := rfl
    have hstate : (handleKeyEvent kl1 e).1.keyStates = (handleKeyEvent kl2 e).1.keyStates := by
      rw [handleKeyEvent_state, handleKeyEvent_state]
      simp only []
      rw [hk]
    have hcalls : (handleKeyEvent kl1 e).2 = (handleKeyEvent kl2 e).2 := by
      rw [handleKeyEvent_calls, handleKeyEvent_calls, h1, h2]
      simp only [List.flatMap_append, List.flatMap_cons, isCombinationActive, hstate, hc]
      rw [keysAllPressed_congr _ keys1 keys2 hset]
    rw [hu1, hu2, hcalls, ih (handleKeyEvent kl1 e).1 (handleKeyEvent kl2 e).1 hstate hc h1 h2]

/-- C14: whether a chord is active depends only on the set of its key codes:
two key lists with the same members (a reordering, or repeated codes) give the
same answer of `isCombinationActive` in every table, and two listeners that
differ only in the key list of one chord, the lists having the same members,
invoke the same handlers on every event of every sequence.  In particular
`[A, A, B]` and `[B, A]` behave as `[A, B]`. -/
theorem C14_active_depends_on_key_set (kl : KeyboardListener) (name1 name2 : String)
    (keys1 keys2 : List Nat) (hset : ∀ k, k ∈ keys1 ↔ k ∈ keys2) :
    isCombinationActive kl { Name := name1, Keys := keys1 } =
      isCombinationActive kl { Name := name2, Keys := keys2 } ∧
    (∀ (kl1 kl2 : KeyboardListener) (pre post : List KeyCombination)
      (evs : List InputEvent), kl1.keyStates = kl2.keyStates →
      kl1.callbacks = kl2.callbacks →
      kl1.combinations = pre ++ { Name := name1, Keys := keys1 } :: post →
      kl2.combinations = pre ++ { Name := name1, Keys := keys2 } :: post →
      (handleKeyEvents kl1 evs).2 = (handleKeyEvents kl2 evs).2) ∧
    (∀ (name : String) (l1 l2 : List Nat), l1.Perm l2 →
      isCombinationActive kl { Name := name, Keys := l1 } =
        isCombinationActive kl { Name := name, Keys := l2 }) ∧
    (∀ (name : String) (l : List Nat),
      isCombinationActive kl { Name := name, Keys := l.dedup } =
        isCombinationActive kl { Name := name, Keys := l }) ∧
    (∀ (name : String) (A B : Nat),
      isCombinationActive kl { Name := name, Keys := [A, A, B] } =
        isCombinationActive kl { Name := name, Keys := [A, B] } ∧
      isCombinationActive kl { Name := name, Keys := [B, A] } =
        isCombinationActive kl { Name := name, Keys := [A, B] }) := by
  refine ⟨keysAllPressed_congr _ keys1 keys2 hset, ?_, ?_, ?_, ?_⟩
  · intro kl1 kl2 pre post evs hk hc h1 h2
    exact handleKeyEvents_key_set name1 keys1 keys2 hset pre post evs kl1 kl2 hk hc h1 h2
  · intro name l1 l2 hperm
    exact keysAllPressed_congr _ l1 l2 (fun k => hperm.mem_iff)
  · intro name l
    exact keysAllPressed_congr _ l.dedup l (fun k => List.mem_dedup)
  · intro name A B
    constructor
    · exact keysAllPressed_congr _ [A, A, B] [A, B] (fun k => by simp)
    · exact keysAllPressed_congr _ [B, A] [A, B] (fun k => by simp [or_comm])

/-- C14 at concrete chords: `[30, 30, 48]` and `[48, 30]` against `[30, 48]`,
over the events press 30, press 48, release 30. -/
theorem C14_active_depends_on_key_set_witness :
    (handleKeyEvents
      (OnCombination (AddCombination (NewKeyboardListener "") "a+b" [30, 30, 48]) "a+b" ⟨7⟩)
      [pressEvent 30, pressEvent 48, releaseEvent 30]).2 =
    (handleKeyEvents
      (OnCombination (AddCombination (NewKeyboardListener "") "a+b" [48, 30]) "a+b" ⟨7⟩)
      [pressEvent 30, pressEvent 48, releaseEvent 30]).2 :=
  (C14_active_depends_on_key_set (NewKeyboardListener "") "a+b" "a+b" [30, 30, 48] [48, 30]
    (by intro k; simp [or_comm])).2.1
    (OnCombination (AddCombination (NewKeyboardListener "") "a+b" [30, 30, 48]) "a+b" ⟨7⟩)
    (OnCombination (AddCombination (NewKeyboardListener "") "a+b" [48, 30]) "a+b" ⟨7⟩)
    [] [] [pressEvent 30, pressEvent 48, releaseEvent 30] rfl rfl rfl rfl

theorem count_dispatch (st : KeyboardListener) (cbs : GoMap String (List Callback))
    (h : Callback) (cs : List KeyCombination) :
    (cs.flatMap (fun c => if isCombinationActive st c then cbs.index c.Name else [])).count h =
      ((cs.filter (fun c => decide (∀ k ∈ c.Keys, st.keyStates.index k = true))).map
        (fun c => (cbs.index c.Name).count h)).sum := by
  induction cs with
  | nil => simp
  | cons c rest ih =>
    by_cases ha : isCombinationActive st c = true
    · have hk := (isCombinationActive_iff st c).1 ha
      rw [List.flatMap_cons, List.count_append, ih, if_pos ha,
        List.filter_cons_of_pos (by simpa using hk)]
      simp
    · have hk : ¬ ∀ k ∈ c.Keys, st.keyStates.index k = true :=
        fun h => ha ((isCombinationActive_iff st c).2 h)
      rw [List.flatMap_cons, List.count_append, ih, if_neg ha,
        List.filter_cons_of_neg (by simpa using hk)]
      simp

theorem sum_map_count_name (cbs : GoMap String (List Callback)) (h : Callback) (n : String)
    (hone : (cbs.index n).count h = 1) (cs : List KeyCombination)
    (hother : ∀ c ∈ cs, c.Name ≠ n → h ∉ cbs.index c.Name) :
    (cs.map (fun c => (cbs.index c.Name).count h)).sum =
      (cs.filter (fun c => decide (c.Name = n))).length := by
  induction cs with
  | nil => simp
  | cons c rest ih =>
    have ih' := ih (fun c' hc' => hother c' (List.mem_cons_of_mem _ hc'))
    by_cases hn : c.Name = n
    · rw [List.map_cons, List.sum_cons, ih', List.filter_cons_of_pos (by simpa using hn), hn,
        hone, List.length_cons, Nat.add_comm]
    · have hz : (cbs.index c.Name).count h = 0 :=
        List.count_eq_zero.2 (hother c (List.mem_cons_self _ _) hn)
      rw [List.map_cons, List.sum_cons, ih', List.filter_cons_of_neg (by simpa using hn), hz,
        Nat.zero_add]

/-- C17: handlers are dispatched per entry of the combination list.  On every
key event, the number of invocations of a handler is the sum, over the entries
that are active after the update, of the number of times it stands in the
handler list of the entry's name; a handler registered once under the name
`n`, and under no other name carried by an entry, is invoked once for every
active entry named `n`.  With the same name added twice and one handler, the
handler runs twice on every event after which both entries are active.  A
handler that stands under no name carried by an entry is never invoked. -/
theorem C17_dispatch_per_definition (kl : KeyboardListener) (e : InputEvent) (h : Callback) :
    (handleKeyEvent kl e).2.count h =
      ((kl.combinations.filter (fun c =>
          decide (∀ k ∈ c.Keys, (handleKeyEvent kl e).1.keyStates.index k = true))).map
        (fun c => (kl.callbacks.index c.Name).count h)).sum ∧
    (∀ n : String, (kl.callbacks.index n).count h = 1 →
      (∀ c ∈ kl.combinations, c.Name ≠ n → h ∉ kl.callbacks.index c.Name) →
      (handleKeyEvent kl e).2.count h =
        ((kl.combinations.filter (fun c =>
          decide (∀ k ∈ c.Keys, (handleKeyEvent kl e).1.keyStates.index k = true))).filter
            (fun c => decide (c.Name = n))).length) ∧
    (∀ (n : String) (keys1 keys2 : List Nat),
      kl.combinations = [{ Name := n, Keys := keys1 }, { Name := n, Keys := keys2 }] →
      kl.callbacks.index n = [h] →
      (∀ k ∈ keys1, (handleKeyEvent kl e).1.keyStates.index k = true) →
      (∀ k ∈ keys2, (handleKeyEvent kl e).1.keyStates.index k = true) →
      (handleKeyEvent kl e).2 = [h, h]) ∧
    ((∀ c ∈ kl.combinations, h ∉ kl.callbacks.index c.Name) → h ∉ (handleKeyEvent kl e).2) ∧
    (∀ n : String, (∀ c ∈ kl.combinations, c.Name ≠ n) →
      (∀ n', n' ≠ n → h ∉ kl.callbacks.index n') → h ∉ (handleKeyEvent kl e).2) := by
  have hsum : (handleKeyEvent kl e).2.count h =
      ((kl.combinations.filter (fun c =>
          decide (∀ k ∈ c.Keys, (handleKeyEvent kl e).1.keyStates.index k = true))).map
        (fun c => (kl.callbacks.index c.Name).count h)).sum := by
    rw [handleKeyEvent_calls]
    exact count_dispatch (handleKeyEvent kl e).1 kl.callbacks h kl.combinations
  have hnever : (∀ c ∈ kl.combinations, h ∉ kl.callbacks.index c.Name) →
      h ∉ (handleKeyEvent kl e).2 := by
    intro hno hmem
    obtain ⟨c, hc, _, hh⟩ := (mem_handleKeyEvent_calls kl e h).1 hmem
    exact hno c hc hh
  refine ⟨hsum, ?_, ?_, hnever, ?_⟩
  · intro n hone hother
    rw [hsum]
    exact sum_map_count_name kl.callbacks h n hone _
      (fun c hc => hother c (List.mem_of_mem_filter hc))
  · intro n keys1 keys2 hcomb hcb h1 h2
    have a1 := (isCombinationActive_iff (handleKeyEvent kl e).1 { Name := n, Keys := keys1 }).2 h1
    have a2 := (isCombinationActive_iff (handleKeyEvent kl e).1 { Name := n, Keys := keys2 }).2 h2
    rw [handleKeyEvent_calls, hcomb]
    simp [a1, a2, hcb]
  · intro n hno hother
    exact hnever (fun c hc => hother c.Name (hno c hc))

/-- C17 at a concrete listener: the chord `[30, 48]` added twice under one
name with one handler; on the press of 48 the handler runs twice. -/
theorem C17_dispatch_per_definition_witness :
    (handleKeyEvent (handleKeyEvent doubleListener (pressEvent 30)).1 (pressEvent 48)).2 =
      [⟨7⟩, ⟨7⟩] :=
  (C17_dispatch_per_definition (handleKeyEvent doubleListener (pressEvent 30)).1
    (pressEvent 48) ⟨7⟩).2.2.1 "a+b" [30, 48] [30, 48] rfl (by decide) (by decide) (by decide)

/-- C18: a chord with an empty key list is active in every key-state table.
Once it is registered, every key event, whatever its code and value and
whatever the table holds, makes its check invoke the handlers under its name:
the whole handler list appears among the invocations of the event, also for a
release event handled from an empty table, and through the listen loop for
every decoded key-type event. -/
theorem C18_empty_chord_always_fires (kl : KeyboardListener) (name : String) :
    isCombinationActive kl { Name := name, Keys := [] } = true ∧
    { Name := name, Keys := [] } ∈ (AddCombination kl name []).combinations ∧
    (∀ e : InputEvent, { Name := name, Keys := [] } ∈ kl.combinations →
      (∀ t, checkCombination (handleKeyEvent kl e).1 t { Name := name, Keys := [] } =
        t ++ kl.callbacks.index name) ∧
      (∃ before after, (handleKeyEvent kl e).2 = before ++ kl.callbacks.index name ++ after) ∧
      (∀ h ∈ kl.callbacks.index name, h ∈ (handleKeyEvent kl e).2)) ∧
    (∀ (s : ReadStep) (rest : List ReadStep) (e : InputEvent),
      { Name := name, Keys := [] } ∈ kl.combinations → kl.running = true →
      binaryRead s.result = .ok e → e.Typ = EV_KEY →
      ∀ h ∈ kl.callbacks.index name, h ∈ (listenLoop kl (s :: rest)).calls) ∧
    (∀ (h : Callback) (code : Nat),
      (handleKeyEvent (OnCombination (AddCombination (NewKeyboardListener "") name []) name h)
        (releaseEvent code)).2 = [h]) := by
  have hact : ∀ st : KeyboardListener,
      isCombinationActive st { Name := name, Keys := [] } = true := fun _ => rfl
  refine ⟨rfl, ?_, ?_, ?_, ?_⟩
  · simp [AddCombination]
  · intro e hc
    refine ⟨?_, ?_, ?_⟩
    · intro t
      rw [checkCombination_eq, if_pos (hact _)]
      rfl
    · obtain ⟨pre, post, hpp⟩ := List.append_of_mem hc
      rw [handleKeyEvent_calls, hpp]
      refine ⟨pre.flatMap (fun c => if isCombinationActive (handleKeyEvent kl e).1 c
          then kl.callbacks.index c.Name else []),
        post.flatMap (fun c => if isCombinationActive (handleKeyEvent kl e).1 c
          then kl.callbacks.index c.Name else []), ?_⟩
      rw [List.flatMap_append, List.flatMap_cons, if_pos (hact _), List.append_assoc]
    · intro h hh
      rw [mem_handleKeyEvent_calls]
      exact ⟨_, hc, fun k hk => by simp at hk, hh⟩
  · intro s rest e hc hrun hread hty h hh
    have hm : h ∈ (handleKeyEvent (observeStop kl s.stopped) e).2 := by
      rw [mem_handleKeyEvent_calls]
      refine ⟨{ Name := name, Keys := [] }, ?_, fun k hk => by simp at hk, ?_⟩
      · unfold observeStop; split <;> exact hc
      · unfold observeStop; split <;> exact hh
    simp [listenLoop, hrun, hread, hty]
    exact Or.inl hm
  · intro h code
    have hd : (default : List Callback) = [] := rfl
    simp [handleKeyEvent_calls, OnCombination, AddCombination, NewKeyboardListener,
      isCombinationActive, keysAllPressed, GoMap.index, GoMap.set, GoMap.empty, hd]

/-- C18 at a concrete listener: a chord without keys fires on the release of
key 30 while no key is pressed. -/
theorem C18_empty_chord_always_fires_witness :
    ∀ h ∈ emptyChordListener.callbacks.index "none",
      h ∈ (handleKeyEvent emptyChordListener (releaseEvent 30)).2 :=
  ((C18_empty_chord_always_fires emptyChordListener "none").2.2.1 (releaseEvent 30)
    (by decide)).2.2

/-! ## Device discovery -/

/-- Runs on file systems whose by-path directory or links cannot be read:
without a readable by-path directory the function fails, whatever event
devices exist; a matching entry whose link cannot be read is passed over, so
the result is the path of the next matching entry, or a fallback device. -/
theorem FindKeyboardDevice_unreadable_examples :
    noByPathFileSystem.stat "/dev/input/event0" = true ∧
    FindKeyboardDevice noByPathFileSystem =
      .error "failed to read /dev/input/by-path: no such file or directory" ∧
    FindKeyboardDevice brokenLinkFileSystem = .ok "/dev/input/event3" ∧
    FindKeyboardDevice onlyBrokenLinkFileSystem = .ok "/dev/input/event2" := by
  refine ⟨by decide, by decide, by decide, by decide⟩

theorem findByPath_none (fs : FileSystem) (dir : String) (entries : List String)
    (hskip : ∀ x ∈ entries, stringsContains x "kbd" = true →
      ∃ e, fs.readlink (filepathJoin dir x) = .error e) :
    findByPath fs dir entries = none := by
  induction entries with
  | nil => rfl
  | cons x rest ih =>
    have ih' := ih (fun y hy => hskip y (List.mem_cons_of_mem _ hy))
    unfold findByPath
    by_cases hk : stringsContains x "kbd" = true
    · obtain ⟨e, he⟩ := hskip x (List.mem_cons_self _ _) hk
      simp only [hk, if_true, he]
      exact ih'
    · simp only [hk]
      exact ih'

theorem findByPath_first (fs : FileSystem) (dir : String) (pre post : List String)
    (entry target : String)
    (hskip : ∀ x ∈ pre, stringsContains x "kbd" = true →
      ∃ e, fs.readlink (filepathJoin dir x) = .error e)
    (hk : stringsContains entry "kbd" = true)
    (hl : fs.readlink (filepathJoin dir entry) = .ok target) :
    findByPath fs dir (pre ++ entry :: post) =
      some (if filepathIsAbs target then target
        else filepathJoin "/dev/input/by-path" target) := by
  induction pre with
  | nil =>
    simp only [List.nil_append]
    unfold findByPath
    simp only [hk, if_true, hl]
    cases filepathIsAbs target <;> simp
  | cons x rest ih =>
    have ih' := ih (fun y hy => hskip y (List.mem_cons_of_mem _ hy))
    simp only [List.cons_append]
    unfold findByPath
    by_cases hx : stringsContains x "kbd" = true
    · obtain ⟨e, he⟩ := hskip x (List.mem_cons_self _ _) hx
      simp only [hx, if_true, he]
      exact ih'
    · simp only [hx]
      exact ih'

theorem find?_first {α : Type} (p : α → Bool) (pre post : List α) (d : α)
    (hpre : ∀ x ∈ pre, p x = false) (hd : p d = true) :
    (pre ++ d :: post).find? p = some d := by
  induction pre with
  | nil => simp [hd]
  | cons x rest ih =>
    have hx := hpre x (List.mem_cons_self _ _)
    simp only [List.cons_append, List.find?_cons, hx]
    exact ih (fun y hy => hpre y (List.mem_cons_of_mem _ hy))

theorem find?_none {α : Type} (p : α → Bool) (l : List α) (h : ∀ x ∈ l, p x = false) :
    l.find? p = none := by
  induction l with
  | nil => rfl
  | cons x rest ih =>
    simp only [List.find?_cons, h x (List.mem_cons_self _ _)]
    exact ih (fun y hy => h y (List.mem_cons_of_mem _ hy))

/-- The cases of `FindKeyboardDevice`: an unreadable directory is an error
at once; otherwise the first entry whose name contains `kbd` and whose link
can be read decides, entries whose link cannot be read being passed over;
otherwise the first existing fallback device, otherwise an error. -/
theorem FindKeyboardDevice_cases (fs : FileSystem) :
    (∀ err, fs.readDir "/dev/input/by-path" = .error err →
      FindKeyboardDevice fs = .error ("failed to read /dev/input/by-path: " ++ err)) ∧
    (∀ (pre post : List String) (entry target : String),
      fs.readDir "/dev/input/by-path" = .ok (pre ++ entry :: post) →
      (∀ x ∈ pre, stringsContains x "kbd" = true →
        ∃ e, fs.readlink (filepathJoin "/dev/input/by-path" x) = .error e) →
      stringsContains entry "kbd" = true →
      fs.readlink (filepathJoin "/dev/input/by-path" entry) = .ok target →
      FindKeyboardDevice fs =
        .ok (if filepathIsAbs target then target
          else filepathJoin "/dev/input/by-path" target)) ∧
    (∀ entries : List String, fs.readDir "/dev/input/by-path" = .ok entries →
      (∀ x ∈ entries, stringsContains x "kbd" = true →
        ∃ e, fs.readlink (filepathJoin "/dev/input/by-path" x) = .error e) →
      (∀ (pre post : List String) (device : String),
        commonDevices = pre ++ device :: post → (∀ x ∈ pre, fs.stat x = false) →
        fs.stat device = true → FindKeyboardDevice fs = .ok device) ∧
      ((∀ device ∈ commonDevices, fs.stat device = false) →
        FindKeyboardDevice fs = .error "no keyboard device found")) ∧
    commonDevices =
      [ "/dev/input/event0", "/dev/input/event1", "/dev/input/event2",
        "/dev/input/event3", "/dev/input/event4", "/dev/input/event5" ] := by
  refine ⟨?_, ?_, ?_, rfl⟩
  · intro err herr
    simp [FindKeyboardDevice, herr]
  · intro pre post entry target hdir hskip hk hl
    simp only [FindKeyboardDevice, hdir, findByPath_first fs _ pre post entry target hskip hk hl]
  · intro entries hdir hskip
    have hnone := findByPath_none fs "/dev/input/by-path" entries hskip
    constructor
    · intro pre post device hcd hpre hd
      simp only [FindKeyboardDevice, hdir, hnone, hcd, find?_first fs.stat pre post device hpre hd]
    · intro hno
      simp only [FindKeyboardDevice, hdir, hnone, find?_none fs.stat commonDevices hno]

theorem exists_first {α : Type} (p : α → Bool) (l : List α) (h : ∃ x ∈ l, p x = true) :
    ∃ pre x post, l = pre ++ x :: post ∧ (∀ y ∈ pre, p y = false) ∧ p x = true := by
  induction l with
  | nil =>
    obtain ⟨x, hx, _⟩ := h
    simp at hx
  | cons a rest ih =>
    by_cases ha : p a = true
    · exact ⟨[], a, rest, rfl, by simp, ha⟩
    · have hrest : ∃ x ∈ rest, p x = true := by
        obtain ⟨x, hx, hpx⟩ := h
        rcases List.mem_cons.1 hx with h1 | h1
        · rw [h1] at hpx
          exact absurd hpx ha
        · exact ⟨x, h1, hpx⟩
      obtain ⟨pre, x, post, hl, hpre, hx⟩ := ih hrest
      refine ⟨a :: pre, x, post, by simp [hl], ?_, hx⟩
      intro y hy
      rcases List.mem_cons.1 hy with h1 | h1
      · rw [h1]
        simpa using ha
      · exact hpre y h1

theorem all_false_or_exists {α : Type} (p : α → Bool) (l : List α) :
    (∀ x ∈ l, p x = false) ∨ ∃ x ∈ l, p x = true := by
  by_cases h : ∃ x ∈ l, p x = true
  · exact Or.inr h
  · left
    intro x hx
    cases hp : p x with
    | false => rfl
    | true => exact absurd ⟨x, hx, hp⟩ h

/-- C15: over a file system given by the by-path listing, the link target of
each entry and the set of existing paths, `FindKeyboardDevice` returns the
resolved path (the link target, joined to the by-path directory when it is
relative) of the first entry, in listing order, whose name contains `kbd`,
whenever there is such an entry; when no entry matches it returns the first
of `/dev/input/event0` .. `/dev/input/event5` that exists, in ascending
order; and it fails exactly when no entry matches and none of those six paths
exists. -/
theorem C15_find_device (fs : FileSystem) (entries : List String)
    (target : String → String)
    (hdir : fs.readDir "/dev/input/by-path" = .ok entries)
    (hlink : ∀ entry ∈ entries,
      fs.readlink (filepathJoin "/dev/input/by-path" entry) = .ok (target entry)) :
    (∀ (pre post : List String) (entry : String), entries = pre ++ entry :: post →
      (∀ x ∈ pre, stringsContains x "kbd" = false) → stringsContains entry "kbd" = true →
      FindKeyboardDevice fs =
        .ok (if filepathIsAbs (target entry) then target entry
          else filepathJoin "/dev/input/by-path" (target entry))) ∧
    ((∃ entry ∈ entries, stringsContains entry "kbd" = true) →
      ∃ path, FindKeyboardDevice fs = .ok path) ∧
    ((∀ x ∈ entries, stringsContains x "kbd" = false) →
      (∀ (pre post : List String) (device : String),
        commonDevices = pre ++ device :: post → (∀ x ∈ pre, fs.stat x = false) →
        fs.stat device = true → FindKeyboardDevice fs = .ok device) ∧
      ((∀ device ∈ commonDevices, fs.stat device = false) →
        FindKeyboardDevice fs = .error "no keyboard device found")) ∧
    ((∃ err, FindKeyboardDevice fs = .error err) ↔
      (∀ x ∈ entries, stringsContains x "kbd" = false) ∧
        ∀ device ∈ commonDevices, fs.stat device = false) ∧
    commonDevices =
      [ "/dev/input/event0", "/dev/input/event1", "/dev/input/event2",
        "/dev/input/event3", "/dev/input/event4", "/dev/input/event5" ] := by
  obtain ⟨_, hfirst, hfall, _⟩ := FindKeyboardDevice_cases fs
  have hmatch : ∀ (pre post : List String) (entry : String), entries = pre ++ entry :: post →
      (∀ x ∈ pre, stringsContains x "kbd" = false) → stringsContains entry "kbd" = true →
      FindKeyboardDevice fs =
        .ok (if filepathIsAbs (target entry) then target entry
          else filepathJoin "/dev/input/by-path" (target entry)) := by
    intro pre post entry he hpre hk
    refine hfirst pre post entry (target entry) (by rw [← he]; exact hdir) ?_ hk
      (hlink entry (by rw [he]; simp))
    intro x hx hkx
    rw [hpre x hx] at hkx
    exact Bool.noConfusion hkx
  have hsome : (∃ entry ∈ entries, stringsContains entry "kbd" = true) →
      ∃ path, FindKeyboardDevice fs = .ok path := by
    intro h
    obtain ⟨pre, entry, post, he, hpre, hk⟩ :=
      exists_first (fun x => stringsContains x "kbd") entries h
    exact ⟨_, hmatch pre post entry he hpre hk⟩
  have hnomatch : (∀ x ∈ entries, stringsContains x "kbd" = false) →
      (∀ (pre post : List String) (device : String),
        commonDevices = pre ++ device :: post → (∀ x ∈ pre, fs.stat x = false) →
        fs.stat device = true → FindKeyboardDevice fs = .ok device) ∧
      ((∀ device ∈ commonDevices, fs.stat device = false) →
        FindKeyboardDevice fs = .error "no keyboard device found") := by
    intro hno
    refine hfall entries hdir ?_
    intro x hx hkx
    rw [hno x hx] at hkx
    exact Bool.noConfusion hkx
  refine ⟨hmatch, hsome, hnomatch, ?_, rfl⟩
  constructor
  · rintro ⟨err, herr⟩
    rcases all_false_or_exists (fun x => stringsContains x "kbd") entries with hno | hex
    · refine ⟨hno, ?_⟩
      rcases all_false_or_exists fs.stat commonDevices with hnd | hd
      · exact hnd
      · obtain ⟨pre, device, post, hc, hpre, hdev⟩ := exists_first fs.stat commonDevices hd
        rw [(hnomatch hno).1 pre post device hc hpre hdev] at herr
        exact absurd herr (by simp)
    · obtain ⟨path, hpath⟩ := hsome hex
      rw [hpath] at herr
      exact absurd herr (by simp)
  · rintro ⟨hno, hnd⟩
    exact ⟨_, (hnomatch hno).2 hnd⟩

/-- C15 at a concrete file system: the listing holds a mouse entry and a
keyboard entry whose link leads to `/dev/input/event3`. -/
theorem C15_find_device_witness :
    FindKeyboardDevice linkedFileSystem = .ok "/dev/input/event3" :=
  (C15_find_device linkedFileSystem
    ["pci-0000:00:14.0-event-mouse", "platform-i8042-serio-0-event-kbd"]
    (fun entry => if entry = "platform-i8042-serio-0-event-kbd" then "../event3"
      else "../event5")
    rfl (by decide)).1 ["pci-0000:00:14.0-event-mouse"] []
    "platform-i8042-serio-0-event-kbd" rfl (by decide) (by decide)

/-! ## Key names and numeric key codes -/

theorem le_foldl_decimal (l : List Char) :
    ∀ acc : Nat, acc ≤ l.foldl (fun a c => a * 10 + (c.toNat - 48)) acc := by
  induction l with
  | nil => intro acc; exact Nat.le_refl _
  | cons c rest ih =>
    intro acc
    have h := ih (acc * 10 + (c.toNat - 48))
    simp only [List.foldl_cons]
    omega

theorem parseUintDigits_eq (l : List Char) :
    ∀ acc : Nat, acc ≤ 65535 →
      (∀ v, parseUintDigits l acc = some v ↔
        (∀ c ∈ l, c.isDigit = true) ∧
          l.foldl (fun a c => a * 10 + (c.toNat - 48)) acc ≤ 65535 ∧
          v = l.foldl (fun a c => a * 10 + (c.toNat - 48)) acc) := by
  induction l with
  | nil =>
    intro acc hacc v
    simp only [parseUintDigits, List.foldl_nil, List.not_mem_nil, false_implies, implies_true,
      true_and, Option.some.injEq]
    constructor
    · intro h; exact ⟨hacc, h.symm⟩
    · intro h; exact h.2.symm
  | cons c rest ih =>
    intro acc hacc v
    by_cases hd : c.isDigit = true
    · by_cases hbig : acc * 10 + (c.toNat - 48) > 65535
      · have hle := le_foldl_decimal rest (acc * 10 + (c.toNat - 48))
        simp only [parseUintDigits, hd, if_true, hbig, List.foldl_cons]
        constructor
        · intro h; exact absurd h (by simp)
        · intro h; omega
      · simp only [parseUintDigits, hd, if_true, hbig, if_false, List.foldl_cons]
        rw [ih _ (by omega) v]
        simp [hd]
    · simp only [parseUintDigits, hd, List.foldl_cons]
      constructor
      · intro h; exact absurd h (by simp)
      · intro h; exact absurd (h.1 c (List.mem_cons_self _ _)) hd

theorem strconvParseUint16_eq (key : String) (v : Nat) :
    strconvParseUint16 key = some v ↔ IsDecimalUint16 key ∧ v = decimalValue key.data := by
  unfold strconvParseUint16 IsDecimalUint16 decimalValue
  by_cases he : key.data = []
  · simp [he]
  · rw [if_neg he, parseUintDigits_eq key.data 0 (by omega) v]
    simp [he, and_assoc]

theorem stringToKeyCode_of_name (key : String) (code : Nat)
    (h : keyNames.lookup key = some code) : stringToKeyCode key = .ok code := by
  simp [stringToKeyCode, h]

theorem stringToKeyCode_of_numeral (key : String) (hn : keyNames.lookup key = none)
    (hd : IsDecimalUint16 key) : stringToKeyCode key = .ok (decimalValue key.data) := by
  have hp := (strconvParseUint16_eq key (decimalValue key.data)).2 ⟨hd, rfl⟩
  have hlt : decimalValue key.data % 2 ^ 16 = decimalValue key.data := by
    have := hd.2.2
    omega
  simp only [stringToKeyCode, hn, hp, hlt]

theorem stringToKeyCode_of_unknown (key : String) (hn : keyNames.lookup key = none)
    (hd : ¬ IsDecimalUint16 key) : stringToKeyCode key = .error ("unknown key: " ++ key) := by
  have hp : strconvParseUint16 key = none := by
    cases h : strconvParseUint16 key with
    | none => rfl
    | some v => exact absurd ((strconvParseUint16_eq key v).1 h).1 hd
  simp [stringToKeyCode, hn, hp]

theorem lookup_isSome_iff_isKeyName (key : String) :
    (keyNames.lookup key).isSome = true ↔ IsKeyName key := by
  rw [List.lookup_isSome_iff]
  unfold IsKeyName
  simp only [List.mem_map, beq_iff_eq]
  constructor
  · rintro ⟨p, hp, hk⟩
    exact ⟨p, hp, hk.symm⟩
  · rintro ⟨p, hp, hk⟩
    exact ⟨p, hp, hk.symm⟩

theorem stringToKeyCode_ok_iff (key : String) :
    (∃ code, stringToKeyCode key = .ok code) ↔ IsKeyName key ∨ IsDecimalUint16 key := by
  cases hl : keyNames.lookup key with
  | some code =>
    have hname : IsKeyName key := (lookup_isSome_iff_isKeyName key).1 (by simp [hl])
    exact ⟨fun _ => Or.inl hname, fun _ => ⟨code, stringToKeyCode_of_name key code hl⟩⟩
  | none =>
    have hname : ¬ IsKeyName key := fun h => by
      have := (lookup_isSome_iff_isKeyName key).2 h
      simp [hl] at this
    by_cases hd : IsDecimalUint16 key
    · exact ⟨fun _ => Or.inr hd, fun _ => ⟨_, stringToKeyCode_of_numeral key hl hd⟩⟩
    · constructor
      · rintro ⟨code, hc⟩
        rw [stringToKeyCode_of_unknown key hl hd] at hc
        exact absurd hc (by simp)
      · rintro (h | h)
        · exact absurd h hname
        · exact absurd h hd

theorem digitChar_isDigit (d : Nat) (h : d < 10) :
    (Nat.digitChar d).isDigit = true ∧ (Nat.digitChar d).toNat - 48 = d := by
  interval_cases d <;> exact ⟨by decide, by decide⟩

theorem foldl_decimal_acc (l : List Char) :
    ∀ acc : Nat, l.foldl (fun a c => a * 10 + (c.toNat - 48)) acc =
      acc * 10 ^ l.length + l.foldl (fun a c => a * 10 + (c.toNat - 48)) 0 := by
  induction l with
  | nil => intro acc; simp
  | cons c rest ih =>
    intro acc
    simp only [List.foldl_cons, List.length_cons]
    rw [ih (acc * 10 + (c.toNat - 48)), ih (0 * 10 + (c.toNat - 48))]
    ring

theorem decimalValue_cons (c : Char) (l : List Char) :
    decimalValue (c :: l) = (c.toNat - 48) * 10 ^ l.length + decimalValue l := by
  unfold decimalValue
  rw [List.foldl_cons, foldl_decimal_acc]
  simp

theorem toDigitsCore_isDigit (fuel : Nat) :
    ∀ (n : Nat) (ds : List Char), (∀ c ∈ ds, c.isDigit = true) →
      ∀ c ∈ Nat.toDigitsCore 10 fuel n ds, c.isDigit = true := by
  induction fuel with
  | zero => intro n ds hds; simpa [Nat.toDigitsCore] using hds
  | succ fuel ih =>
    intro n ds hds
    have hd := (digitChar_isDigit (n % 10) (Nat.mod_lt _ (by decide))).1
    have hds' : ∀ c ∈ Nat.digitChar (n % 10) :: ds, c.isDigit = true := by
      intro c hc
      rcases List.mem_cons.1 hc with h | h
      · rw [h]; exact hd
      · exact hds c h
    unfold Nat.toDigitsCore
    simp only []
    split
    · exact hds'
    · exact ih _ _ hds'

theorem toDigitsCore_length (fuel : Nat) :
    ∀ (n : Nat) (ds : List Char), ds.length ≤ (Nat.toDigitsCore 10 fuel n ds).length := by
  induction fuel with
  | zero => intro n ds; simp [Nat.toDigitsCore]
  | succ fuel ih =>
    intro n ds
    unfold Nat.toDigitsCore
    simp only []
    split
    · simp
    · have := ih (n / 10) (Nat.digitChar (n % 10) :: ds)
      simp only [List.length_cons] at this
      omega

theorem toDigitsCore_value (fuel : Nat) :
    ∀ (n : Nat) (ds : List Char), n < fuel →
      decimalValue (Nat.toDigitsCore 10 fuel n ds) = n * 10 ^ ds.length + decimalValue ds := by
  induction fuel with
  | zero => intro n ds h; omega
  | succ fuel ih =>
    intro n ds hlt
    have hd := (digitChar_isDigit (n % 10) (Nat.mod_lt _ (by decide))).2
    have hn := (Nat.div_add_mod n 10).symm
    unfold Nat.toDigitsCore
    simp only []
    split
    · rename_i hz
      rw [decimalValue_cons, hd]
      have : n % 10 = n := by omega
      rw [this]
    · rename_i hz
      rw [ih (n / 10) _ (by omega), decimalValue_cons, hd, List.length_cons]
      generalize n / 10 = q at hn
      generalize n % 10 = r at hn
      rw [hn]
      ring

theorem decimalNumeral_facts (n : Nat) :
    (∀ c ∈ (decimalNumeral n).data, c.isDigit = true) ∧
    decimalValue (decimalNumeral n).data = n ∧
    1 ≤ (decimalNumeral n).data.length ∧
    (10 ≤ n → 2 ≤ (decimalNumeral n).data.length) := by
  have hdata : (decimalNumeral n).data = Nat.toDigitsCore 10 (n + 1) n [] := rfl
  refine ⟨?_, ?_, ?_, ?_⟩
  · rw [hdata]
    exact toDigitsCore_isDigit (n + 1) n [] (by simp)
  · rw [hdata, toDigitsCore_value (n + 1) n [] (by omega)]
    simp [decimalValue]
  · rw [hdata]
    unfold Nat.toDigitsCore
    simp only []
    split
    · simp
    · have := toDigitsCore_length n (n / 10) [Nat.digitChar (n % 10)]
      simpa using this
  · intro h10
    rw [hdata]
    unfold Nat.toDigitsCore
    simp only []
    have hq : n / 10 ≠ 0 := by omega
    rw [if_neg hq]
    obtain ⟨m, hm⟩ : ∃ m, n = m + 1 := ⟨n - 1, by omega⟩
    rw [hm]
    unfold Nat.toDigitsCore
    simp only []
    split
    · simp
    · have := toDigitsCore_length m ((m + 1) / 10 / 10)
        [Nat.digitChar ((m + 1) / 10 % 10), Nat.digitChar ((m + 1) % 10)]
      simpa using this

theorem keyNames_long_not_digits :
    ∀ p ∈ keyNames, p.1.data.length < 2 ∨ ∃ c ∈ p.1.data, c.isDigit = false := by
  decide

theorem lookup_long_numeral (key : String) (hlen : 2 ≤ key.data.length)
    (hdig : ∀ c ∈ key.data, c.isDigit = true) : keyNames.lookup key = none := by
  rw [List.lookup_eq_none_iff]
  intro p hp
  rw [bne_iff_ne]
  intro hk
  rcases keyNames_long_not_digits p hp with h | ⟨c, hc, hf⟩
  · rw [← hk] at h
    omega
  · rw [← hk] at hc
    rw [hdig c hc] at hf
    exact Bool.noConfusion hf

/-- C19: in `stringToKeyCode` the named keys come before the numeric reading.
For `10 <= n <= 65535` the canonical decimal numeral of `n` is accepted and
gives the key code `n`; the one-digit numerals give the code of the digit key,
`0` the code 11 and `d` in 1..9 the code `d + 1`, never the code `d` itself;
the numeral of a number above 65535 is rejected as an unknown key. -/
theorem C19_named_keys_before_numbers (n : Nat) :
    (10 ≤ n → n ≤ 65535 → stringToKeyCode (decimalNumeral n) = .ok n) ∧
    (65535 < n →
      stringToKeyCode (decimalNumeral n) = .error ("unknown key: " ++ decimalNumeral n)) ∧
    (stringToKeyCode "0" = .ok 11 ∧ decimalNumeral 0 = "0" ∧ KEY_0 = 11) ∧
    (∀ d, 1 ≤ d → d ≤ 9 → stringToKeyCode (decimalNumeral d) = .ok (d + 1)) ∧
    (∀ d, d ≤ 9 → stringToKeyCode (decimalNumeral d) ≠ .ok d) := by
  obtain ⟨hdig, hval, hlen1, hlen2⟩ := decimalNumeral_facts n
  have hne : (decimalNumeral n).data ≠ [] := by
    intro h
    rw [h] at hlen1
    simp at hlen1
  refine ⟨?_, ?_, ⟨by decide, by decide, rfl⟩, ?_, ?_⟩
  · intro h10 hmax
    have hl := lookup_long_numeral _ (hlen2 h10) hdig
    have hd : IsDecimalUint16 (decimalNumeral n) := ⟨hne, hdig, by rw [hval]; exact hmax⟩
    rw [stringToKeyCode_of_numeral _ hl hd, hval]
  · intro hbig
    have hl := lookup_long_numeral _ (hlen2 (by omega)) hdig
    have hd : ¬ IsDecimalUint16 (decimalNumeral n) := by
      intro h
      have := h.2.2
      rw [hval] at this
      omega
    exact stringToKeyCode_of_unknown _ hl hd
  · intro d h1 h9
    interval_cases d <;> decide
  · intro d h9
    interval_cases d <;> decide

/-- C19 at the key code 125 (left meta), given as a number. -/
theorem C19_named_keys_before_numbers_witness :
    stringToKeyCode (decimalNumeral 125) = .ok 125 ∧
    stringToKeyCode (decimalNumeral 7) = .ok 8 :=
  ⟨(C19_named_keys_before_numbers 125).1 (by decide) (by decide),
    (C19_named_keys_before_numbers 7).2.2.2.1 7 (by decide) (by decide)⟩

/-! ## Parsing of key combinations -/

theorem splitOnChar_ne_nil (sep : Char) (l : List Char) : splitOnChar sep l ≠ [] := by
  induction l with
  | nil => simp [splitOnChar]
  | cons c rest ih =>
    unfold splitOnChar
    split
    · simp
    · split <;> simp

theorem splitOnChar_map (sep : Char) (f : Char → Char) (hsep : ∀ c, f c = sep ↔ c = sep)
    (l : List Char) :
    splitOnChar sep (l.map f) = (splitOnChar sep l).map (List.map f) := by
  induction l with
  | nil => simp [splitOnChar]
  | cons c rest ih =>
    simp only [List.map_cons, splitOnChar, ih]
    cases h : splitOnChar sep rest with
    | nil => simp
    | cons part parts =>
      by_cases hc : c = sep
      · simp [hc, (hsep c).2 hc, (hsep sep).2 rfl]
      · have hf : f c ≠ sep := fun h' => hc ((hsep c).1 h')
        simp [hc, hf]

theorem splitOnChar_mem (sep : Char) (l : List Char) :
    ∀ p ∈ splitOnChar sep l, ∀ c ∈ p, c ∈ l := by
  induction l with
  | nil => intro p hp c hc; simp [splitOnChar] at hp; subst hp; simp at hc
  | cons a rest ih =>
    intro p hp c hc
    unfold splitOnChar at hp
    cases h : splitOnChar sep rest with
    | nil =>
      rw [h] at hp
      simp at hp
      subst hp
      simp at hc
    | cons part parts =>
      rw [h] at hp ih
      by_cases ha : a = sep
      · simp only [ha, if_true, List.mem_cons] at hp
        rcases hp with hp | hp | hp
        · subst hp; simp at hc
        · exact List.mem_cons_of_mem _ (ih p (by simp [hp]) c hc)
        · exact List.mem_cons_of_mem _ (ih p (by simp [hp]) c hc)
      · simp only [ha, if_false, List.mem_cons] at hp
        rcases hp with hp | hp
        · subst hp
          rcases List.mem_cons.1 hc with h1 | h1
          · rw [h1]; exact List.mem_cons_self _ _
          · exact List.mem_cons_of_mem _ (ih part (by simp) c h1)
        · exact List.mem_cons_of_mem _ (ih p (by simp [hp]) c hc)

theorem dropWhile_congr (p q : Char → Bool) (l : List Char) (h : ∀ c ∈ l, p c = q c) :
    l.dropWhile p = l.dropWhile q := by
  induction l with
  | nil => rfl
  | cons a rest ih =>
    have ha := h a (List.mem_cons_self _ _)
    simp only [List.dropWhile_cons, ha]
    split
    · exact ih (fun c hc => h c (List.mem_cons_of_mem _ hc))
    · rfl

theorem trimSpaceChars_congr (u v : UnicodeTables) (l : List Char)
    (h : ∀ c ∈ l, u.isSpace c = v.isSpace c) : trimSpaceChars u l = trimSpaceChars v l := by
  unfold trimSpaceChars
  rw [dropWhile_congr u.isSpace v.isSpace l h]
  rw [dropWhile_congr u.isSpace v.isSpace _ (fun c hc =>
    h c ((List.dropWhile_suffix _).subset (List.mem_reverse.1 hc)))]

theorem toLower_ascii (c : Char) (h : c.toNat < 128) : c.toLower.toNat < 128 := by
  unfold Char.toLower
  simp only []
  split
  · rename_i hu
    have hc : c = Char.ofNat c.toNat := (Char.ofNat_toNat c).symm
    generalize c.toNat = k at hu hc h ⊢
    obtain ⟨h1, h2⟩ := hu
    interval_cases k <;> decide
  · exact h

theorem toLower_plus (c : Char) : c.toLower = '+' ↔ c = '+' := by
  constructor
  · intro hl
    unfold Char.toLower at hl
    simp only [] at hl
    split at hl
    · rename_i hu
      exfalso
      have hc : c = Char.ofNat c.toNat := (Char.ofNat_toNat c).symm
      generalize c.toNat = k at hu hc hl
      obtain ⟨h1, h2⟩ := hu
      interval_cases k <;> exact absurd hl (by decide)
    · exact hl
  · intro h
    rw [h]
    decide

theorem parseKeyParts_congr (u v : UnicodeTables) (combination : String)
    (parts : List String) :
    (∀ part ∈ parts, stringsTrimSpace u part = stringsTrimSpace v part) →
    ∀ keys, parseKeyParts u combination parts keys = parseKeyParts v combination parts keys := by
  induction parts with
  | nil => intro _ keys; rfl
  | cons part rest ih =>
    intro h keys
    have hp := h part (List.mem_cons_self _ _)
    have ih' := ih (fun p hp' => h p (List.mem_cons_of_mem _ hp'))
    simp only [parseKeyParts, hp]
    cases stringToKeyCode (stringsTrimSpace v part) with
    | error e => rfl
    | ok code => exact ih' _

theorem ParseKeyCombination_ascii (u : UnicodeTables) (hu : u.AgreesOnAscii) (s : String)
    (hs : ∀ c ∈ s.data, c.toNat < 128) :
    ParseKeyCombination u s = ParseKeyCombination asciiTables s := by
  have hlow : s.data.map u.toLower = s.data.map asciiTables.toLower :=
    List.map_congr_left (fun c hc => (hu c (hs c hc)).1)
  have hlower : stringsToLower u s = stringsToLower asciiTables s := by
    simp only [stringsToLower, hlow]
  unfold ParseKeyCombination
  simp only [hlower]
  apply parseKeyParts_congr
  intro part hpart
  simp only [stringsSplit, List.mem_map] at hpart
  obtain ⟨p, hp, rfl⟩ := hpart
  simp only [stringsTrimSpace]
  congr 1
  apply trimSpaceChars_congr
  intro c hc
  have hmem := splitOnChar_mem '+' _ p hp c hc
  simp only [stringsToLower, List.mem_map] at hmem
  obtain ⟨c0, hc0, rfl⟩ := hmem
  exact (hu _ (toLower_ascii c0 (hs c0 hc0))).2

theorem parseKeyParts_ok_iff (u : UnicodeTables) (combination : String)
    (parts : List String) :
    ∀ acc keys : List Nat, parseKeyParts u combination parts acc = .ok keys ↔
      ∃ codes, keys = acc ++ codes ∧
        parts.map (fun p => stringToKeyCode (stringsTrimSpace u p)) = codes.map Except.ok := by
  induction parts with
  | nil =>
    intro acc keys
    simp only [parseKeyParts, List.map_nil]
    constructor
    · intro h
      refine ⟨[], ?_, rfl⟩
      simp only [Except.ok.injEq] at h
      simp [h]
    · rintro ⟨codes, hk, hc⟩
      have : codes = [] := by
        cases codes with
        | nil => rfl
        | cons a l => simp at hc
      subst this
      simp [hk]
  | cons part rest ih =>
    intro acc keys
    simp only [parseKeyParts, List.map_cons]
    cases hcode : stringToKeyCode (stringsTrimSpace u part) with
    | error e =>
      simp only []
      constructor
      · intro h; exact absurd h (by simp)
      · rintro ⟨codes, _, hc⟩
        cases codes with
        | nil => simp at hc
        | cons a l => simp at hc
    | ok code =>
      simp only []
      rw [ih (acc ++ [code]) keys]
      constructor
      · rintro ⟨codes, hk, hc⟩
        exact ⟨code :: codes, by simp [hk], by simp [hc]⟩
      · rintro ⟨codes, hk, hc⟩
        cases codes with
        | nil => simp at hc
        | cons a l =>
          simp only [List.map_cons, List.cons.injEq, Except.ok.injEq] at hc
          refine ⟨l, ?_, hc.2⟩
          rw [hk, hc.1]
          simp

theorem code_parts_eq (u : UnicodeTables) (hplus : ∀ c, u.toLower c = '+' ↔ c = '+')
    (s : String) :
    (stringsSplit (stringsToLower u s) '+').map (fun p => stringsTrimSpace u p) =
      combinationParts u s := by
  simp only [stringsSplit, stringsToLower, combinationParts,
    splitOnChar_map '+' u.toLower hplus, List.map_map]
  rfl

theorem ParseKeyCombination_ok_iff (u : UnicodeTables)
    (hplus : ∀ c, u.toLower c = '+' ↔ c = '+') (s : String) (keys : List Nat) :
    ParseKeyCombination u s = .ok keys ↔
      (combinationParts u s).map stringToKeyCode = keys.map Except.ok := by
  unfold ParseKeyCombination
  simp only []
  rw [parseKeyParts_ok_iff, ← code_parts_eq u hplus s, List.map_map]
  constructor
  · rintro ⟨codes, hk, hc⟩
    rw [hk, List.nil_append]
    exact hc
  · intro h
    exact ⟨keys, by simp, h⟩

theorem exists_codes (parts : List String)
    (h : ∀ p ∈ parts, ∃ code, stringToKeyCode p = .ok code) :
    ∃ keys : List Nat, parts.map stringToKeyCode = keys.map Except.ok := by
  induction parts with
  | nil => exact ⟨[], rfl⟩
  | cons p rest ih =>
    obtain ⟨code, hc⟩ := h p (List.mem_cons_self _ _)
    obtain ⟨keys, hk⟩ := ih (fun q hq => h q (List.mem_cons_of_mem _ hq))
    exact ⟨code :: keys, by simp [hc, hk]⟩

theorem empty_key_rejected : ¬ (IsKeyName "" ∨ IsDecimalUint16 "") := by
  rintro (h | h)
  · revert h
    unfold IsKeyName
    decide
  · exact h.1 rfl

/-- C16: `ParseKeyCombination(s)` succeeds exactly when every part of `s`
between the `+` signs is, once lower-cased and stripped of surrounding white
space, a key name of `stringToKeyCode` or a decimal numeral in 0..65535.  On
success the result holds one key code per part, in the order of the parts,
and is never empty; otherwise the result is an error, which carries no keys.
The empty string and every string with an empty part, such as `ctrl++`, are
rejected; `win+c` and ` WIN + C ` both give `[125, 46]`. -/
theorem C16_ParseKeyCombination (u : UnicodeTables)
    (hplus : ∀ c, u.toLower c = '+' ↔ c = '+') (s : String) :
    ((∃ keys, ParseKeyCombination u s = .ok keys) ↔
      ∀ p ∈ combinationParts u s, IsKeyName p ∨ IsDecimalUint16 p) ∧
    (∀ keys, ParseKeyCombination u s = .ok keys ↔
      (combinationParts u s).map stringToKeyCode = keys.map Except.ok) ∧
    (∀ keys, ParseKeyCombination u s = .ok keys →
      keys.length = (combinationParts u s).length ∧ keys ≠ []) ∧
    ((¬ ∃ keys, ParseKeyCombination u s = .ok keys) →
      ∃ err, ParseKeyCombination u s = .error err) ∧
    ("" ∈ combinationParts u s → ∃ err, ParseKeyCombination u s = .error err) ∧
    (∃ err, ParseKeyCombination u "" = .error err) ∧
    (u.AgreesOnAscii →
      ParseKeyCombination u "win+c" = .ok [125, 46] ∧
      ParseKeyCombination u " WIN + C " = .ok [125, 46] ∧
      (∃ err, ParseKeyCombination u "ctrl++" = .error err) ∧
      ParseKeyCombination u DefaultKeyBindingConfig.ClipboardKey = .ok [KEY_LEFTMETA, KEY_C] ∧
      ParseKeyCombination u DefaultKeyBindingConfig.ScreenshotKey = .ok [KEY_LEFTMETA, KEY_S] ∧
      ParseKeyCombination u DefaultKeyBindingConfig.AllContextKey = .ok [KEY_LEFTMETA, KEY_E] ∧
      ParseKeyCombination u DefaultKeyBindingConfig.TextOnlyKey = .ok [KEY_LEFTMETA, KEY_T]) := by
  have hiff := ParseKeyCombination_ok_iff u hplus
  have hfail : ∀ t : String, (¬ ∃ keys, ParseKeyCombination u t = .ok keys) →
      ∃ err, ParseKeyCombination u t = .error err := by
    intro t hno
    cases h : ParseKeyCombination u t with
    | error err => exact ⟨err, rfl⟩
    | ok keys => exact absurd ⟨keys, h⟩ hno
  have hsucc : ∀ t : String, (∃ keys, ParseKeyCombination u t = .ok keys) ↔
      ∀ p ∈ combinationParts u t, IsKeyName p ∨ IsDecimalUint16 p := by
    intro t
    constructor
    · rintro ⟨keys, hk⟩ p hp
      rw [hiff t keys] at hk
      have hm : stringToKeyCode p ∈ keys.map Except.ok := by
        rw [← hk]
        exact List.mem_map_of_mem _ hp
      obtain ⟨code, _, hcode⟩ := List.mem_map.1 hm
      exact (stringToKeyCode_ok_iff p).1 ⟨code, hcode.symm⟩
    · intro h
      obtain ⟨keys, hk⟩ := exists_codes (combinationParts u t)
        (fun p hp => (stringToKeyCode_ok_iff p).2 (h p hp))
      exact ⟨keys, (hiff t keys).2 hk⟩
  have hempty : ∀ t : String, "" ∈ combinationParts u t →
      ∃ err, ParseKeyCombination u t = .error err := by
    intro t hmem
    apply hfail t
    intro hok
    exact empty_key_rejected ((hsucc t).1 hok "" hmem)
  refine ⟨hsucc s, hiff s, ?_, hfail s, hempty s, ?_, ?_⟩
  · intro keys hk
    rw [hiff s keys] at hk
    have hlen : keys.length = (combinationParts u s).length := by
      have := congrArg List.length hk
      simpa using this.symm
    refine ⟨hlen, ?_⟩
    intro hnil
    rw [hnil] at hlen
    have hne : combinationParts u s ≠ [] := by
      unfold combinationParts
      intro h
      exact splitOnChar_ne_nil '+' s.data (List.map_eq_nil_iff.1 h)
    exact hne (List.length_eq_zero.1 hlen.symm)
  · apply hempty ""
    simp [combinationParts, splitOnChar, trimSpaceChars]
  · intro hu
    refine ⟨?_, ?_, ?_, ?_, ?_, ?_, ?_⟩
    · rw [ParseKeyCombination_ascii u hu "win+c" (by decide)]
      decide
    · rw [ParseKeyCombination_ascii u hu " WIN + C " (by decide)]
      decide
    · rw [ParseKeyCombination_ascii u hu "ctrl++" (by decide)]
      exact ⟨_, rfl⟩
    · rw [ParseKeyCombination_ascii u hu _ (by decide)]
      decide
    · rw [ParseKeyCombination_ascii u hu _ (by decide)]
      decide
    · rw [ParseKeyCombination_ascii u hu _ (by decide)]
      decide
    · rw [ParseKeyCombination_ascii u hu _ (by decide)]
      decide

/-- C16 at the ASCII tables and the string ` WIN + C `. -/
theorem C16_ParseKeyCombination_witness :
    ParseKeyCombination asciiTables " WIN + C " = .ok [125, 46] ∧
    (∃ err, ParseKeyCombination asciiTables "ctrl++" = .error err) :=
  ⟨((C16_ParseKeyCombination asciiTables toLower_plus " WIN + C ").2.1 [125, 46]).2 (by decide),
    (C16_ParseKeyCombination asciiTables toLower_plus "ctrl++").2.2.2.2.1 (by decide)⟩

end Keygeist
